import Mathlib

/-!
Shallow embedding of the BiteSpeed identity-reconciliation core
(`src/services/contact.service.ts`, `src/repositories/contact.repository.ts`,
`src/validators/identify.validator.ts`, `src/types/contact.types.ts`).

The persisted store is modelled as a list of contacts in insertion order
(insertion order coincides with ascending `id`, since ids are assigned
monotonically).  Timestamps are natural numbers.  JavaScript
`string | null | undefined` values are modelled as `Option String`: the core
treats `null` and `undefined` identically (`email ?? null`, `if (email)`,
`email && …`), so a single `none` covers both.  JavaScript truthiness of a
string (`if (email)`) is `truthy` below: `none` and `some ""` are falsy.

`prisma.findMany` with `orderBy` is modelled as a stable insertion sort over
the insertion-ordered list; `prisma.findFirst` returns the first matching row
in insertion order.  `Array.prototype.sort` (stable since ES2019) and the
insertion-ordered `Map` of the service are modelled accordingly.
-/

namespace BiteSpeed

inductive LinkPrecedence where
  | primary
  | secondary
deriving DecidableEq, Repr

/-- `Contact` from `src/types/contact.types.ts` (field order as in the source). -/
structure Contact where
  id : Nat
  phoneNumber : Option String
  email : Option String
  linkedId : Option Nat
  linkPrecedence : LinkPrecedence
  createdAt : Nat
  updatedAt : Nat
  deletedAt : Option Nat
deriving DecidableEq, Repr

/-- The persisted store: contact rows in insertion order, the next id to be
assigned, and the current clock used for fresh timestamps. -/
structure DB where
  contacts : List Contact
  nextId : Nat
  now : Nat
deriving DecidableEq, Repr

/-- JavaScript truthiness of a `string | null | undefined` value:
`null`, `undefined` and `""` are falsy. -/
def truthy : Option String → Bool
  | none => false
  | some s => !s.isEmpty

/-- Stable insertion of `a` before the first element `b` with `le a b`.
For equal keys the inserted (originally earlier) element goes first, so the
sort below is stable. -/
def insertLe (le : α → α → Bool) (a : α) : List α → List α
  | [] => [a]
  | b :: l => if le a b then a :: b :: l else b :: insertLe le a l

/-- Stable insertion sort by a boolean comparator (models SQL `ORDER BY` on
the insertion-ordered row list and JavaScript's stable `Array.sort`). -/
def sortByLe (le : α → α → Bool) : List α → List α
  | [] => []
  | a :: l => insertLe le a (sortByLe le l)

/-- `orderBy: { createdAt: "asc" }`. -/
def byCreatedAt (a b : Contact) : Bool :=
  decide (a.createdAt ≤ b.createdAt)

/-- Rank of `linkPrecedence` under the lexicographic string order used by
`orderBy: { linkPrecedence: "asc" }` (`"primary" < "secondary"`). -/
def precRank : LinkPrecedence → Nat
  | .primary => 0
  | .secondary => 1

/-- `orderBy: [{ linkPrecedence: "asc" }, { createdAt: "asc" }]`. -/
def byPrecCreated (a b : Contact) : Bool :=
  decide (precRank a.linkPrecedence < precRank b.linkPrecedence) ||
    (decide (precRank a.linkPrecedence = precRank b.linkPrecedence) &&
      decide (a.createdAt ≤ b.createdAt))

/-- The candidate filter of `findByEmailOrPhone`: prisma `OR` of an `email`
condition (present only when `email` is truthy) and a `phoneNumber` condition
(present only when `phoneNumber` is truthy). -/
def matchesCandidate (email phoneNumber : Option String) (c : Contact) : Bool :=
  (truthy email && decide (c.email = email)) ||
    (truthy phoneNumber && decide (c.phoneNumber = phoneNumber))

/-- `ContactRepository.findByEmailOrPhone`: returns `[]` when no condition was
pushed (both inputs falsy); otherwise all rows with `deletedAt: null` matching
either condition, ordered by `createdAt` ascending. -/
def findByEmailOrPhone (db : DB) (email phoneNumber : Option String) : List Contact :=
  if !truthy email && !truthy phoneNumber then []
  else
    sortByLe byCreatedAt
      (db.contacts.filter fun c =>
        decide (c.deletedAt = none) && matchesCandidate email phoneNumber c)

/-- `ContactRepository.findById`: `findFirst` on `{ id, deletedAt: null }`. -/
def findById (db : DB) (id : Nat) : Option Contact :=
  db.contacts.find? fun c => decide (c.deletedAt = none) && decide (c.id = id)

/-- `ContactRepository.findAllInCluster`: all non-deleted rows with
`id = primaryId` or `linkedId = primaryId`, ordered by `linkPrecedence`
ascending then `createdAt` ascending. -/
def findAllInCluster (db : DB) (primaryId : Nat) : List Contact :=
  sortByLe byPrecCreated
    (db.contacts.filter fun c =>
      decide (c.deletedAt = none) &&
        (decide (c.id = primaryId) || decide (c.linkedId = some primaryId)))

/-- Argument record of `ContactRepository.createContact`. -/
structure CreateData where
  email : Option String
  phoneNumber : Option String
  linkedId : Option Nat
  linkPrecedence : LinkPrecedence

/-- `ContactRepository.createContact`: insert a row, assigning the next id and
fresh `createdAt`/`updatedAt` timestamps (and `deletedAt = null`). -/
def createContact (db : DB) (d : CreateData) : Contact × DB :=
  let c : Contact :=
    { id := db.nextId
      phoneNumber := d.phoneNumber
      email := d.email
      linkedId := d.linkedId
      linkPrecedence := d.linkPrecedence
      createdAt := db.now
      updatedAt := db.now
      deletedAt := none }
  (c, { contacts := db.contacts ++ [c], nextId := db.nextId + 1, now := db.now + 1 })

/-- `ContactRepository.demoteContact`: `update` on `{ id }` setting
`linkPrecedence = "secondary"`, `linkedId = newPrimaryId` (no `deletedAt`
filter; `updatedAt` is refreshed). -/
def demoteContact (db : DB) (id newPrimaryId : Nat) : DB :=
  { db with
    contacts := db.contacts.map fun c =>
      if decide (c.id = id) then
        { c with linkPrecedence := .secondary, linkedId := some newPrimaryId,
                 updatedAt := db.now }
      else c }

/-- `ContactRepository.reattachSecondaries`: `updateMany` on
`{ linkedId: oldPrimaryId }` setting `linkedId = newPrimaryId`. -/
def reattachSecondaries (db : DB) (oldPrimaryId newPrimaryId : Nat) : DB :=
  { db with
    contacts := db.contacts.map fun c =>
      if decide (c.linkedId = some oldPrimaryId) then
        { c with linkedId := some newPrimaryId, updatedAt := db.now }
      else c }

/-- `ConsolidatedContact` from `src/types/contact.types.ts` (the misspelled
`primaryContatctId` key is intentional in the source). -/
structure ConsolidatedContact where
  primaryContatctId : Nat
  emails : List String
  phoneNumbers : List String
  secondaryContactIds : List Nat
deriving DecidableEq, Repr

/-- `_resolvePrimary` of the service.  A primary is its own root; a secondary's
root is fetched by `findById(contact.linkedId!)`; when the parent is missing
the contact itself is returned (data-inconsistency guard).  When `linkedId` is
`null` the `!` assertion passes `undefined` to `findById`, whose prisma filter
then ignores the `id` condition: `findFirst` returns the first non-deleted row
(or `null` on an empty table, in which case the guard returns the contact). -/
def _resolvePrimary (db : DB) (c : Contact) : Contact :=
  if c.linkPrecedence = .primary then c
  else
    match c.linkedId with
    | some lid => (findById db lid).getD c
    | none => ((db.contacts.find? fun x => decide (x.deletedAt = none)).getD c)

/-- One `primaryMap.set(root.id, root)` step: a JavaScript `Map` keeps
insertion order and updates the value in place on an existing key. -/
def insertRoot (acc : List Contact) (root : Contact) : List Contact :=
  if acc.any fun r => decide (r.id = root.id) then
    acc.map fun r => if decide (r.id = root.id) then root else r
  else acc ++ [root]

/-- Step 3 of `identify`: resolve each matched contact to its root and collect
the distinct roots in first-resolution order. -/
def resolveRoots (db : DB) (matched : List Contact) : List Contact :=
  matched.foldl (fun acc c => insertRoot acc (_resolvePrimary db c)) []

/-- The distinct roots sorted by `createdAt` ascending
(`primaries.sort((a, b) => a.createdAt.getTime() - b.createdAt.getTime())`,
a stable sort comparing only `createdAt`). -/
def resolveRootsSorted (db : DB) (matched : List Contact) : List Contact :=
  sortByLe byCreatedAt (resolveRoots db matched)

/-- `_isNewInfo` of the service: the pair carries new information when a
truthy email is on no cluster member, or a truthy phone is on no member; a
falsy field (`null`/`undefined`/`""`) contributes nothing. -/
def _isNewInfo (email phoneNumber : Option String)
    (clusterContacts : List Contact) : Bool :=
  let emailExists :=
    clusterContacts.any fun c => truthy email && decide (c.email = email)
  let phoneExists :=
    clusterContacts.any fun c => truthy phoneNumber && decide (c.phoneNumber = phoneNumber)
  (truthy email && !emailExists) || (truthy phoneNumber && !phoneExists)

/-- Recursion of `_deduplicate` with the `seen` set accumulated so far:
`if (!v || seen.has(v)) return false` drops `null`, `undefined`, `""` and
repeated values, keeping the first occurrence. -/
def dedupGo (seen : List String) : List (Option String) → List String
  | [] => []
  | none :: vs => dedupGo seen vs
  | some s :: vs =>
      if s.isEmpty || seen.contains s then dedupGo seen vs
      else s :: dedupGo (s :: seen) vs

/-- `_deduplicate` of the service. -/
def _deduplicate (values : List (Option String)) : List String :=
  dedupGo [] values

/-- `_buildResponse` of the service.  The source dereferences
`all.find((c) => c.id === primaryId)!`; the embedding returns `none` exactly
when that non-null assertion would dereference `undefined`. -/
def _buildResponse (db : DB) (primaryId : Nat) : Option ConsolidatedContact :=
  let all := findAllInCluster db primaryId
  match all.find? fun c => decide (c.id = primaryId) with
  | none => none
  | some primary =>
    let secondaries := all.filter fun c => !decide (c.id = primaryId)
    some
      { primaryContatctId := primaryId
        emails := _deduplicate (primary.email :: secondaries.map (·.email))
        phoneNumbers :=
          _deduplicate (primary.phoneNumber :: secondaries.map (·.phoneNumber))
        secondaryContactIds := secondaries.map (·.id) }

/-- Step 4 of `identify`: for every non-surviving root, in order, re-point its
secondaries to the surviving root and only then demote it. -/
def mergeLoop (db : DB) (targetId : Nat) : List Contact → DB
  | [] => db
  | other :: rest =>
      mergeLoop
        (demoteContact (reattachSecondaries db other.id targetId) other.id targetId)
        targetId rest

/-- All intermediate persisted states of the merge loop, one after each store
write (first the state after each `reattachSecondaries`, then the state after
the matching `demoteContact`). -/
def mergeTrace (db : DB) (targetId : Nat) : List Contact → List DB
  | [] => []
  | other :: rest =>
      let db1 := reattachSecondaries db other.id targetId
      let db2 := demoteContact db1 other.id targetId
      db1 :: db2 :: mergeTrace db2 targetId rest

/-- `ContactService.identify`.  Returns the final store state and the
consolidated response (`none` exactly when `_buildResponse`'s non-null
assertion would fail).  `email ?? null` / `phoneNumber ?? null` are identities
on the `Option String` model. -/
def identify (email phoneNumber : Option String) (db : DB) :
    DB × Option ConsolidatedContact :=
  let matched := findByEmailOrPhone db email phoneNumber
  if matched.isEmpty then
    let r := createContact db
      { email := email, phoneNumber := phoneNumber, linkedId := none,
        linkPrecedence := .primary }
    (r.2, _buildResponse r.2 r.1.id)
  else
    match resolveRootsSorted db matched with
    | [] => (db, none)
    | oldest :: rest =>
      let db1 := mergeLoop db oldest.id rest
      let cluster := findAllInCluster db1 oldest.id
      let db2 :=
        if _isNewInfo email phoneNumber cluster then
          (createContact db1
            { email := email, phoneNumber := phoneNumber,
              linkedId := some oldest.id, linkPrecedence := .secondary }).2
        else db1
      (db2, _buildResponse db2 oldest.id)

/-- All intermediate persisted states of one `identify` call, one after each
store write (`reattachSecondaries`, `demoteContact`, `createContact`), in
program order.  The store issues these as independent statements: there is no
enclosing transaction in the repository, so a failure after the `k`-th write
leaves exactly the `k`-th state persisted. -/
def identifyWriteTrace (email phoneNumber : Option String) (db : DB) : List DB :=
  let matched := findByEmailOrPhone db email phoneNumber
  if matched.isEmpty then
    [(createContact db
      { email := email, phoneNumber := phoneNumber, linkedId := none,
        linkPrecedence := .primary }).2]
  else
    match resolveRootsSorted db matched with
    | [] => []
    | oldest :: rest =>
      let states := mergeTrace db oldest.id rest
      let db1 := mergeLoop db oldest.id rest
      let cluster := findAllInCluster db1 oldest.id
      if _isNewInfo email phoneNumber cluster then
        states ++ [(createContact db1
          { email := email, phoneNumber := phoneNumber,
            linkedId := some oldest.id, linkPrecedence := .secondary }).2]
      else states

/-! ## Invariants of the data model (spec §3) -/

/-- The row with a given id (first match in insertion order). -/
def getById (db : DB) (i : Nat) : Option Contact :=
  db.contacts.find? fun c => decide (c.id = i)

/-- I1: `precedence = PRIMARY ⟺ linkedId = null`. -/
def I1holds (db : DB) : Prop :=
  ∀ c ∈ db.contacts, c.linkPrecedence = .primary ↔ c.linkedId = none

/-- I2/I3: a non-null `linkedId` is the id of a PRIMARY contact (equivalently,
no SECONDARY's `linkedId` points to another SECONDARY). -/
def I2I3holds (db : DB) : Prop :=
  ∀ c ∈ db.contacts, ∀ r, c.linkedId = some r →
    ∃ p ∈ db.contacts, p.id = r ∧ p.linkPrecedence = .primary

/-- I4: within a cluster, the root is the earliest-created record. -/
def I4holds (db : DB) : Prop :=
  ∀ c ∈ db.contacts, ∀ r, c.linkedId = some r →
    ∃ p ∈ db.contacts, p.id = r ∧ p.createdAt ≤ c.createdAt

/-- Structural well-formedness of the store: ids are pairwise distinct, below
the id counter, and creation timestamps do not exceed the clock. -/
def WFholds (db : DB) : Prop :=
  List.Pairwise (fun a b => a.id ≠ b.id) db.contacts ∧
    (∀ c ∈ db.contacts, c.id < db.nextId) ∧
    (∀ c ∈ db.contacts, c.createdAt ≤ db.now)

/-- No contact is soft-deleted.  The core itself never sets `deletedAt`. -/
def NoDeleted (db : DB) : Prop := ∀ c ∈ db.contacts, c.deletedAt = none

/-- The full store invariant preserved by `identify`. -/
def Inv (db : DB) : Prop :=
  WFholds db ∧ NoDeleted db ∧ I1holds db ∧ I2I3holds db ∧ I4holds db

instance (db : DB) : Decidable (I1holds db) := by
  unfold I1holds; infer_instance

instance (db : DB) : Decidable (I2I3holds db) := by
  unfold I2I3holds; infer_instance

instance (db : DB) : Decidable (I4holds db) := by
  unfold I4holds; infer_instance

instance (db : DB) : Decidable (WFholds db) := by
  unfold WFholds; infer_instance

instance (db : DB) : Decidable (NoDeleted db) := by
  unfold NoDeleted; infer_instance

instance (db : DB) : Decidable (Inv db) := by
  unfold Inv; infer_instance

/-! ## Spec-side definitions (following the wording of the claims) -/

/-- The claimed new-information condition, with "supplied" read literally as
the spec's `email != null` (so a supplied empty string counts as supplied). -/
def specIsNewSupplied (email phoneNumber : Option String)
    (cluster : List Contact) : Prop :=
  (email ≠ none ∧ ∀ c ∈ cluster, c.email ≠ email) ∨
    (phoneNumber ≠ none ∧ ∀ c ∈ cluster, c.phoneNumber ≠ phoneNumber)

/-- The amended new-information condition: a field counts as supplied only
when it is a non-empty string. -/
def specIsNewTruthy (email phoneNumber : Option String)
    (cluster : List Contact) : Prop :=
  (truthy email = true ∧ ∀ c ∈ cluster, c.email ≠ email) ∨
    (truthy phoneNumber = true ∧ ∀ c ∈ cluster, c.phoneNumber ≠ phoneNumber)

instance (e p : Option String) (l : List Contact) :
    Decidable (specIsNewSupplied e p l) := by
  unfold specIsNewSupplied; infer_instance

instance (e p : Option String) (l : List Contact) :
    Decidable (specIsNewTruthy e p l) := by
  unfold specIsNewTruthy; infer_instance

/-- Duplicates removed keeping the first occurrence (`seen` accumulates the
values kept so far). -/
def dedupFirstGo (seen : List String) : List String → List String
  | [] => []
  | s :: l =>
      if seen.contains s then dedupFirstGo seen l
      else s :: dedupFirstGo (s :: seen) l

/-- Duplicates removed keeping the first occurrence. -/
def dedupFirst (l : List String) : List String := dedupFirstGo [] l

/-- The claimed list assembly: null values dropped, duplicates removed keeping
the first occurrence (empty strings kept, as the claim words it). -/
def specCollapse (values : List (Option String)) : List String :=
  dedupFirst (values.filterMap id)

/-- The amended list assembly: null and empty-string values dropped,
duplicates removed keeping the first occurrence. -/
def specCollapseNonEmpty (values : List (Option String)) : List String :=
  dedupFirst ((values.filterMap id).filter fun s => !s.isEmpty)

/-! ## The request validator

`identifySchema` lives in `src/validators/identify.validator.ts`; its email
check delegates to the external zod library's `z.string().email()`, modelled
here after zod v3's email regular expression: a local part over
`[A-Za-z0-9_'+.-]` that does not start with `.`, contains no `..` and ends in
`[A-Za-z0-9_+-]`, an `@`, and a domain of one or more labels
`[A-Za-z0-9][A-Za-z0-9-]*` separated by dots, ending in an alphabetic
top-level part of length at least 2. -/

/-- Characters allowed anywhere in the local part (includes the apostrophe,
written by code point). -/
def isLocalChar (c : Char) : Bool :=
  c.isAlphanum || decide (c = '_') || decide (c = Char.ofNat 39) ||
    decide (c = '+') || decide (c = '-') || decide (c = '.')

/-- Characters allowed as the final character of the local part. -/
def isLocalEnd (c : Char) : Bool :=
  c.isAlphanum || decide (c = '_') || decide (c = '+') || decide (c = '-')

/-- No two adjacent dots. -/
def noDoubleDot : List Char → Bool
  | [] => true
  | [_] => true
  | a :: b :: l =>
      !(decide (a = '.') && decide (b = '.')) && noDoubleDot (b :: l)

/-- The local part of the modelled email check. -/
def localOk (l : List Char) : Bool :=
  match l with
  | [] => false
  | c :: _ =>
      !decide (c = '.') && l.all isLocalChar && noDoubleDot l &&
        (match l.getLast? with
         | some e => isLocalEnd e
         | none => false)

/-- One domain label: `[A-Za-z0-9][A-Za-z0-9-]*`. -/
def labelOk (l : List Char) : Bool :=
  match l with
  | [] => false
  | c :: rest => c.isAlphanum && rest.all fun x => x.isAlphanum || decide (x = '-')

/-- The final domain part: alphabetic, length at least 2. -/
def tldOk (l : List Char) : Bool :=
  decide (2 ≤ l.length) && l.all Char.isAlpha

/-- Model of the external `z.string().email()` check (zod v3). -/
def zodEmailOk (s : String) : Bool :=
  match s.toList.splitOn '@' with
  | [lpart, dpart] =>
      localOk lpart &&
        (let parts := dpart.splitOn '.'
         decide (2 ≤ parts.length) && parts.dropLast.all labelOk &&
           (match parts.getLast? with
            | some t => tldOk t
            | none => false))
  | _ => false

/-- `identifySchema`: `email` must be absent or pass the email-format check,
`phoneNumber` must be absent or any string, and at least one of the two must
be non-null (`data.email != null || data.phoneNumber != null`). -/
def identifySchemaAccepts (email phoneNumber : Option String) : Bool :=
  (match email with
   | none => true
   | some s => zodEmailOk s) &&
    (decide (email ≠ none) || decide (phoneNumber ≠ none))

/-! ## Closed form of the merge loop (proof artefacts) -/

/-- The pointwise effect on one row of one merge-loop iteration for stale root
`o`: first the reattach condition, then the demote condition (both store
updates are row-local, so the loop acts pointwise on rows). -/
def mergeStepRow (t now : Nat) (o : Contact) (c : Contact) : Contact :=
  let r1 := if decide (c.linkedId = some o.id) then
      { c with linkedId := some t, updatedAt := now }
    else c
  if decide (r1.id = o.id) then
    { r1 with linkPrecedence := .secondary, linkedId := some t, updatedAt := now }
  else r1

/-- Closed form of the whole merge loop's effect on one row (valid under the
store invariant): stale roots are demoted onto the target, rows linked to a
stale root are re-pointed at the target, and all other rows are untouched. -/
def mergeRow (t now : Nat) (restIds : List Nat) (c : Contact) : Contact :=
  if c.id ∈ restIds then
    { c with linkPrecedence := .secondary, linkedId := some t, updatedAt := now }
  else
    match c.linkedId with
    | some r =>
        if r ∈ restIds then { c with linkedId := some t, updatedAt := now } else c
    | none => c

/-! ## Concrete stores used by the counterexamples -/

/-- One primary with a phone and an email. -/
def dbC1 : DB :=
  ⟨[⟨1, some "p1", some "a@x.co", none, .primary, 0, 0, none⟩], 2, 10⟩

/-- A soft-deleted primary (id 1), its secondary (id 2), and an unrelated
primary (id 3); invariants I1–I4 hold as stated. -/
def dbC2 : DB :=
  ⟨[⟨1, some "x1", some "a@x.co", none, .primary, 0, 0, some 5⟩,
    ⟨2, some "x2", some "b@x.co", some 1, .secondary, 1, 1, none⟩,
    ⟨3, some "p3", some "c@x.co", none, .primary, 2, 2, none⟩], 4, 10⟩

/-- Two roots with equal `createdAt` (ids 1 and 2) and one secondary in each
cluster; the secondary of root 2 was created before the secondary of root 1. -/
def dbC3 : DB :=
  ⟨[⟨1, some "q1", some "r1@x.co", none, .primary, 0, 0, none⟩,
    ⟨2, some "q2", some "r2@x.co", none, .primary, 0, 0, none⟩,
    ⟨3, some "x3", some "s2@x.co", some 2, .secondary, 3, 3, none⟩,
    ⟨4, some "x4", some "s1@x.co", some 1, .secondary, 4, 4, none⟩], 5, 10⟩

/-- Two distinct clusters, the younger root (id 2) having a secondary (id 3). -/
def dbC6 : DB :=
  ⟨[⟨1, some "919191", some "george@hillvalley.edu", none, .primary, 0, 0, none⟩,
    ⟨2, some "717171", some "biffsucks@hillvalley.edu", none, .primary, 1, 1, none⟩,
    ⟨3, some "727272", some "match@hillvalley.edu", some 2, .secondary, 2, 2, none⟩],
   4, 10⟩

/-- One primary whose stored email is the empty string. -/
def dbC7 : DB :=
  ⟨[⟨1, some "9", some "", none, .primary, 0, 0, none⟩], 2, 10⟩

/-- A soft-deleted contact matching the email `"a@x.co"`, and the same store
with the contact not deleted. -/
def dbC8 : DB :=
  ⟨[⟨1, none, some "a@x.co", none, .primary, 0, 0, some 5⟩], 2, 10⟩

def dbC8' : DB :=
  ⟨[⟨1, none, some "a@x.co", none, .primary, 0, 0, none⟩], 2, 10⟩

/-! ## Generic lemmas about the stable sort -/

theorem mem_insertLe {le : α → α → Bool} {a b : α} {l : List α} :
    b ∈ insertLe le a l ↔ b = a ∨ b ∈ l := by
  induction l with
  | nil => simp [insertLe]
  | cons x xs ih =>
      simp only [insertLe]
      split
      · simp [List.mem_cons]
      · simp only [List.mem_cons, ih]
        tauto

theorem mem_sortByLe {le : α → α → Bool} {l : List α} {a : α} :
    a ∈ sortByLe le l ↔ a ∈ l := by
  induction l with
  | nil => simp [sortByLe]
  | cons x xs ih => simp [sortByLe, mem_insertLe, ih]

theorem sortByLe_eq_nil {le : α → α → Bool} {l : List α} :
    sortByLe le l = [] ↔ l = [] := by
  cases l with
  | nil => simp [sortByLe]
  | cons x xs =>
      simp only [sortByLe]
      constructor
      · intro h
        have : x ∈ insertLe le x (sortByLe le xs) := mem_insertLe.mpr (Or.inl rfl)
        rw [h] at this
        exact absurd this (List.not_mem_nil x)
      · intro h
        exact absurd h (List.cons_ne_nil x xs)

/-- The head of the sorted list is minimal, for a total transitive comparator. -/
theorem sortByLe_head_min {le : α → α → Bool}
    (htot : ∀ x y, le x y = true ∨ le y x = true)
    (htrans : ∀ x y z, le x y = true → le y z = true → le x z = true)
    {l l' : List α} {a : α} (h : sortByLe le l = a :: l') :
    ∀ b ∈ l, le a b = true := by
  induction l generalizing a l' with
  | nil => cases h
  | cons x xs ih =>
      simp only [sortByLe] at h
      cases hsx : sortByLe le xs with
      | nil =>
          rw [hsx] at h
          simp only [insertLe] at h
          injection h with h1 _
          subst h1
          intro b hb
          rcases List.mem_cons.mp hb with rfl | hb
          · rcases htot b b with hbb | hbb <;> exact hbb
          · rw [sortByLe_eq_nil.mp hsx] at hb
            exact absurd hb (List.not_mem_nil b)
      | cons y ys =>
          rw [hsx] at h
          simp only [insertLe] at h
          by_cases hxy : le x y = true
          · rw [if_pos hxy] at h
            injection h with h1 _
            subst h1
            intro b hb
            rcases List.mem_cons.mp hb with rfl | hb
            · rcases htot b b with hbb | hbb <;> exact hbb
            · exact htrans _ _ _ hxy (ih hsx b hb)
          · rw [if_neg hxy] at h
            injection h with h1 _
            subst h1
            intro b hb
            have hyx : le y x = true := by
              rcases htot x y with hx | hx
              · exact absurd hx hxy
              · exact hx
            rcases List.mem_cons.mp hb with rfl | hb
            · exact hyx
            · exact ih hsx b hb

/-- The head of the sorted list is the first of the input's minimal elements:
every input element strictly before it compares strictly greater. -/
theorem sortByLe_head_first {le : α → α → Bool} {l l' : List α} {a : α}
    (h : sortByLe le l = a :: l') :
    ∃ l₁ l₂, l = l₁ ++ a :: l₂ ∧ ∀ b ∈ l₁, le b a = false := by
  induction l generalizing a l' with
  | nil => cases h
  | cons x xs ih =>
      simp only [sortByLe] at h
      cases hsx : sortByLe le xs with
      | nil =>
          rw [hsx] at h
          simp only [insertLe] at h
          injection h with h1 _
          subst h1
          exact ⟨[], xs, rfl, by simp⟩
      | cons y ys =>
          rw [hsx] at h
          simp only [insertLe] at h
          by_cases hxy : le x y = true
          · rw [if_pos hxy] at h
            injection h with h1 _
            subst h1
            exact ⟨[], xs, rfl, by simp⟩
          · rw [if_neg hxy] at h
            injection h with h1 _
            subst h1
            obtain ⟨l₁, l₂, heq, hall⟩ := ih hsx
            refine ⟨x :: l₁, l₂, by rw [heq]; rfl, ?_⟩
            intro b hb
            rcases List.mem_cons.mp hb with rfl | hb
            · exact Bool.eq_false_iff.mpr hxy
            · exact hall b hb

/-! ## Lemmas about root resolution -/

theorem insertRoot_ne_nil {acc : List Contact} {r : Contact} :
    insertRoot acc r ≠ [] := by
  unfold insertRoot
  split
  · cases acc with
    | nil => simp_all
    | cons x xs => simp
  · simp

theorem mem_insertRoot {acc : List Contact} {r x : Contact} :
    x ∈ insertRoot acc r → x = r ∨ x ∈ acc := by
  unfold insertRoot
  split
  · intro hx
    obtain ⟨y, hy, hxy⟩ := List.mem_map.mp hx
    by_cases hid : y.id = r.id
    · rw [if_pos (decide_eq_true hid)] at hxy
      exact Or.inl hxy.symm
    · rw [if_neg (by simpa using hid)] at hxy
      exact Or.inr (hxy ▸ hy)
  · intro hx
    rcases List.mem_append.mp hx with hx | hx
    · exact Or.inr hx
    · exact Or.inl (List.mem_singleton.mp hx)

theorem resolveRoots_mem {db : DB} {ms : List Contact} {r : Contact} :
    r ∈ resolveRoots db ms → ∃ m ∈ ms, r = _resolvePrimary db m := by
  unfold resolveRoots
  have key : ∀ (ms : List Contact) (acc : List Contact),
      r ∈ ms.foldl (fun acc c => insertRoot acc (_resolvePrimary db c)) acc →
      r ∈ acc ∨ ∃ m ∈ ms, r = _resolvePrimary db m := by
    intro ms
    induction ms with
    | nil => intro acc h; exact Or.inl h
    | cons m ms ih =>
        intro acc h
        rcases ih _ h with h | ⟨m', hm', hr⟩
        · rcases mem_insertRoot h with h | h
          · exact Or.inr ⟨m, List.mem_cons_self m ms, h⟩
          · exact Or.inl h
        · exact Or.inr ⟨m', List.mem_cons_of_mem m hm', hr⟩
  intro h
  rcases key ms [] h with h | h
  · exact absurd h (List.not_mem_nil r)
  · exact h

theorem resolveRoots_ne_nil {db : DB} {m : Contact} {ms : List Contact} :
    resolveRoots db (m :: ms) ≠ [] := by
  unfold resolveRoots
  have key : ∀ (ms : List Contact) (acc : List Contact), acc ≠ [] →
      ms.foldl (fun acc c => insertRoot acc (_resolvePrimary db c)) acc ≠ [] := by
    intro ms
    induction ms with
    | nil => intro acc h; exact h
    | cons x xs ih => intro acc _; exact ih _ insertRoot_ne_nil
  simp only [List.foldl_cons]
  exact key ms _ insertRoot_ne_nil

theorem resolveRootsSorted_input_ne_nil {db : DB} {ms : List Contact}
    {t : Contact} {rest : List Contact}
    (h : resolveRootsSorted db ms = t :: rest) : ms ≠ [] := by
  intro hn
  subst hn
  exact absurd h (by simp [resolveRootsSorted, resolveRoots, sortByLe])

/-! ## Comparator facts and permutation facts -/

theorem byCreatedAt_total (x y : Contact) :
    byCreatedAt x y = true ∨ byCreatedAt y x = true := by
  unfold byCreatedAt
  rcases Nat.le_total x.createdAt y.createdAt with h | h
  · exact Or.inl (decide_eq_true h)
  · exact Or.inr (decide_eq_true h)

theorem byCreatedAt_trans (x y z : Contact) (hxy : byCreatedAt x y = true)
    (hyz : byCreatedAt y z = true) : byCreatedAt x z = true := by
  unfold byCreatedAt at *
  exact decide_eq_true
    (Nat.le_trans (of_decide_eq_true hxy) (of_decide_eq_true hyz))

theorem insertLe_perm (le : α → α → Bool) (a : α) (l : List α) :
    (insertLe le a l).Perm (a :: l) := by
  induction l with
  | nil => exact List.Perm.refl _
  | cons b m ih =>
      simp only [insertLe]
      split
      · exact List.Perm.refl _
      · exact (List.Perm.cons b ih).trans (List.Perm.swap a b m)

theorem sortByLe_perm (le : α → α → Bool) (l : List α) :
    (sortByLe le l).Perm l := by
  induction l with
  | nil => exact List.Perm.refl _
  | cons a m ih =>
      exact (insertLe_perm le a (sortByLe le m)).trans (List.Perm.cons a ih)

/-- Two rows of a duplicate-free store with the same id are the same row. -/
theorem id_unique {l : List Contact}
    (hd : List.Pairwise (fun a b => a.id ≠ b.id) l)
    {a b : Contact} (ha : a ∈ l) (hb : b ∈ l) (hab : a.id = b.id) : a = b := by
  by_contra hne
  have hsym : Symmetric fun a b : Contact => a.id ≠ b.id :=
    fun x y h hyx => h hyx.symm
  exact hd.forall hsym ha hb hne hab

/-! ## Root resolution under the invariant -/

/-- Membership in the candidate lookup means: a non-deleted store row matching
the pushed conditions. -/
theorem mem_findByEmailOrPhone {db : DB} {e p : Option String} {m : Contact}
    (h : m ∈ findByEmailOrPhone db e p) :
    m ∈ db.contacts ∧ m.deletedAt = none ∧ matchesCandidate e p m = true := by
  unfold findByEmailOrPhone at h
  split at h
  · exact absurd h (List.not_mem_nil m)
  · have hmf := List.mem_filter.mp (mem_sortByLe.mp h)
    have h2 := hmf.2
    simp only [Bool.and_eq_true, decide_eq_true_eq] at h2
    exact ⟨hmf.1, h2.1, h2.2⟩

/-- Under the invariant, the resolved root of a store row is a primary store
row created no later than the row itself (and the fallback is never taken:
the parent lookup succeeds). -/
theorem resolvePrimary_spec {db : DB} (hInv : Inv db) {m : Contact}
    (hm : m ∈ db.contacts) :
    _resolvePrimary db m ∈ db.contacts ∧
      (_resolvePrimary db m).linkPrecedence = .primary ∧
      (_resolvePrimary db m).createdAt ≤ m.createdAt := by
  obtain ⟨⟨hdist, -, -⟩, hdel, h1, h23, h4⟩ := hInv
  unfold _resolvePrimary
  by_cases hp : m.linkPrecedence = .primary
  · rw [if_pos hp]
    exact ⟨hm, hp, Nat.le_refl _⟩
  · rw [if_neg hp]
    cases hl : m.linkedId with
    | none => exact absurd ((h1 m hm).mpr hl) hp
    | some r =>
        dsimp only
        obtain ⟨q, hq, hqid, hqprim⟩ := h23 m hm r hl
        have hqdel : q.deletedAt = none := hdel q hq
        have hfind : (db.contacts.find? fun c =>
            decide (c.deletedAt = none) && decide (c.id = r)).isSome :=
          List.find?_isSome.mpr ⟨q, hq, by simp [hqdel, hqid]⟩
        obtain ⟨c, hc⟩ := Option.isSome_iff_exists.mp hfind
        have hcfind : findById db r = some c := hc
        rw [hcfind]
        have hcmem : c ∈ db.contacts := List.mem_of_find?_eq_some hc
        have hcpred := List.find?_some hc
        simp only [Bool.and_eq_true, decide_eq_true_eq] at hcpred
        have hcq : c = q := id_unique hdist hcmem hq (hcpred.2.trans hqid.symm)
        obtain ⟨w, hw, hwid, hwle⟩ := h4 m hm r hl
        have hwq : w = q := id_unique hdist hw hq (hwid.trans hqid.symm)
        subst hcq
        simp only [Option.getD_some]
        rw [hwq] at hwle
        exact ⟨hcmem, hqprim, hwle⟩

theorem insertRoot_pairwise {acc : List Contact} {r : Contact}
    (h : List.Pairwise (fun a b => a.id ≠ b.id) acc) :
    List.Pairwise (fun a b => a.id ≠ b.id) (insertRoot acc r) := by
  unfold insertRoot
  split
  · rw [List.pairwise_map]
    refine List.Pairwise.imp ?_ h
    intro a b hab
    have hid : ∀ x : Contact,
        (if decide (x.id = r.id) = true then r else x).id = x.id := by
      intro x
      split
      · rename_i hx
        simp only [decide_eq_true_eq] at hx
        exact hx.symm
      · rfl
    rw [hid a, hid b]
    exact hab
  · rename_i hany
    apply List.pairwise_append.mpr
    refine ⟨h, List.pairwise_singleton _ _, ?_⟩
    intro a ha b hb
    rw [List.mem_singleton] at hb
    subst hb
    intro hcontra
    exact hany (List.any_eq_true.mpr ⟨a, ha, by simp [hcontra]⟩)

theorem resolveRoots_pairwise (db : DB) (ms : List Contact) :
    List.Pairwise (fun a b => a.id ≠ b.id) (resolveRoots db ms) := by
  unfold resolveRoots
  have key : ∀ (ms acc : List Contact),
      List.Pairwise (fun a b => a.id ≠ b.id) acc →
      List.Pairwise (fun a b => a.id ≠ b.id)
        (ms.foldl (fun acc c => insertRoot acc (_resolvePrimary db c)) acc) := by
    intro ms
    induction ms with
    | nil => exact fun acc h => h
    | cons m mm ih => exact fun acc h => ih _ (insertRoot_pairwise h)
  exact key ms [] List.Pairwise.nil

/-- Under the invariant: the sorted root list of a candidate lookup consists
of pairwise-distinct primary store rows, its head created no later than any
other root. -/
theorem rootsSorted_spec {db : DB} (hInv : Inv db) {e p : Option String}
    {t : Contact} {rest : List Contact}
    (h : resolveRootsSorted db (findByEmailOrPhone db e p) = t :: rest) :
    (∀ r ∈ t :: rest, r ∈ db.contacts ∧ r.linkPrecedence = .primary) ∧
    List.Pairwise (fun a b => a.id ≠ b.id) (t :: rest) ∧
    (∀ r ∈ t :: rest, t.createdAt ≤ r.createdAt) := by
  refine ⟨?_, ?_, ?_⟩
  · intro r hr
    have hr' : r ∈ resolveRoots db (findByEmailOrPhone db e p) := by
      have : r ∈ sortByLe byCreatedAt (resolveRoots db (findByEmailOrPhone db e p)) := by
        rw [show sortByLe byCreatedAt (resolveRoots db (findByEmailOrPhone db e p)) =
            t :: rest from h]
        exact hr
      exact mem_sortByLe.mp this
    obtain ⟨m, hm, hrm⟩ := resolveRoots_mem hr'
    obtain ⟨hmmem, -, -⟩ := mem_findByEmailOrPhone hm
    have := resolvePrimary_spec ⟨hInv.1, hInv.2.1, hInv.2.2.1, hInv.2.2.2.1,
      hInv.2.2.2.2⟩ hmmem
    rw [← hrm] at this
    exact ⟨this.1, this.2.1⟩
  · have hperm := sortByLe_perm byCreatedAt (resolveRoots db (findByEmailOrPhone db e p))
    rw [show sortByLe byCreatedAt (resolveRoots db (findByEmailOrPhone db e p)) =
        t :: rest from h] at hperm
    exact (List.Perm.pairwise_iff (fun h hyx => h hyx.symm) hperm).mpr
      (resolveRoots_pairwise db (findByEmailOrPhone db e p))
  · intro r hr
    have hr' : r ∈ resolveRoots db (findByEmailOrPhone db e p) := by
      have : r ∈ sortByLe byCreatedAt (resolveRoots db (findByEmailOrPhone db e p)) := by
        rw [show sortByLe byCreatedAt (resolveRoots db (findByEmailOrPhone db e p)) =
            t :: rest from h]
        exact hr
      exact mem_sortByLe.mp this
    exact of_decide_eq_true (sortByLe_head_min byCreatedAt_total byCreatedAt_trans h r hr')

/-! ## The merge loop acts pointwise on rows -/

/-- `reattachSecondaries` then `demoteContact` are both row-local maps, so the
whole merge loop is one map of the iterated row function. -/
theorem mergeLoop_eq_map (db : DB) (t : Nat) (rest : List Contact) :
    mergeLoop db t rest =
      ⟨db.contacts.map fun c =>
        rest.foldl (fun c o => mergeStepRow t db.now o c) c,
       db.nextId, db.now⟩ := by
  induction rest generalizing db with
  | nil =>
      simp only [mergeLoop, List.foldl_nil]
      simp
  | cons o os ih =>
      simp only [mergeLoop]
      rw [ih]
      simp only [demoteContact, reattachSecondaries, List.map_map]
      rfl

theorem foldRow_untouched {t now : Nat} {rest : List Contact} {c : Contact}
    (h : ∀ o ∈ rest, c.id ≠ o.id ∧ c.linkedId ≠ some o.id) :
    rest.foldl (fun c o => mergeStepRow t now o c) c = c := by
  induction rest with
  | nil => rfl
  | cons o os ih =>
      have ho := h o (List.mem_cons_self o os)
      have hstep : mergeStepRow t now o c = c := by
        simp [mergeStepRow, ho.1, ho.2]
      rw [List.foldl_cons, hstep]
      exact ih fun o' ho' => h o' (List.mem_cons_of_mem o ho')

theorem foldRow_reattached {t now : Nat} {rest : List Contact} {c : Contact}
    {r : Nat}
    (hcl : c.linkedId = some r)
    (hcid : ∀ o ∈ rest, c.id ≠ o.id)
    (ht : ∀ o ∈ rest, t ≠ o.id)
    (hr : ∃ o ∈ rest, o.id = r) :
    rest.foldl (fun c o => mergeStepRow t now o c) c =
      { c with linkedId := some t, updatedAt := now } := by
  induction rest with
  | nil =>
      obtain ⟨o, ho, -⟩ := hr
      exact absurd ho (List.not_mem_nil o)
  | cons o os ih =>
      rw [List.foldl_cons]
      by_cases hro : r = o.id
      · have hstep : mergeStepRow t now o c =
            { c with linkedId := some t, updatedAt := now } := by
          simp [mergeStepRow, hcl, hro, hcid o (List.mem_cons_self o os)]
        rw [hstep]
        apply foldRow_untouched
        intro o' ho'
        refine ⟨hcid o' (List.mem_cons_of_mem o ho'), ?_⟩
        simp only [ne_eq, Option.some.injEq]
        exact ht o' (List.mem_cons_of_mem o ho')
      · have hstep : mergeStepRow t now o c = c := by
          simp [mergeStepRow, hcl, hro, hcid o (List.mem_cons_self o os)]
        rw [hstep]
        apply ih (fun o' ho' => hcid o' (List.mem_cons_of_mem o ho'))
          (fun o' ho' => ht o' (List.mem_cons_of_mem o ho'))
        obtain ⟨o', ho', hid⟩ := hr
        rcases List.mem_cons.mp ho' with rfl | ho'
        · exact absurd hid.symm hro
        · exact ⟨o', ho', hid⟩

theorem foldRow_demoted {t now : Nat} {rest : List Contact} {c : Contact}
    (hcl : c.linkedId = none)
    (hdist : List.Pairwise (fun a b => a.id ≠ b.id) rest)
    (ht : ∀ o ∈ rest, t ≠ o.id)
    (hc : ∃ o ∈ rest, o.id = c.id) :
    rest.foldl (fun c o => mergeStepRow t now o c) c =
      { c with linkPrecedence := .secondary, linkedId := some t,
               updatedAt := now } := by
  induction rest with
  | nil =>
      obtain ⟨o, ho, -⟩ := hc
      exact absurd ho (List.not_mem_nil o)
  | cons o os ih =>
      rw [List.foldl_cons]
      obtain ⟨hhead, htail⟩ := List.pairwise_cons.mp hdist
      by_cases hco : c.id = o.id
      · have hstep : mergeStepRow t now o c =
            { c with linkPrecedence := .secondary, linkedId := some t,
                     updatedAt := now } := by
          simp [mergeStepRow, hcl, hco]
        rw [hstep]
        apply foldRow_untouched
        intro o' ho'
        constructor
        · rw [hco]
          exact hhead o' ho'
        · simp only [ne_eq, Option.some.injEq]
          exact ht o' (List.mem_cons_of_mem o ho')
      · have hstep : mergeStepRow t now o c = c := by
          simp [mergeStepRow, hcl, hco]
        rw [hstep]
        apply ih htail (fun o' ho' => ht o' (List.mem_cons_of_mem o ho'))
        obtain ⟨o', ho', hid⟩ := hc
        rcases List.mem_cons.mp ho' with rfl | ho'
        · exact absurd hid.symm hco
        · exact ⟨o', ho', hid⟩

/-- Closed form of the merge loop under the invariant's structural facts. -/
theorem mergeLoop_rows (db : DB) (tid : Nat) (rest : List Contact)
    (hdist : List.Pairwise (fun a b => a.id ≠ b.id) db.contacts)
    (h1 : I1holds db)
    (hroots : ∀ o ∈ rest, o ∈ db.contacts ∧ o.linkPrecedence = .primary)
    (htid : ∀ o ∈ rest, tid ≠ o.id)
    (hrdist : List.Pairwise (fun a b => a.id ≠ b.id) rest) :
    mergeLoop db tid rest =
      ⟨db.contacts.map (mergeRow tid db.now (rest.map (·.id))),
       db.nextId, db.now⟩ := by
  rw [mergeLoop_eq_map]
  congr 1
  apply List.map_congr_left
  intro c hc
  by_cases hcid : c.id ∈ rest.map (·.id)
  · obtain ⟨o, ho, hoid⟩ := List.mem_map.mp hcid
    have hoc : o = c := id_unique hdist (hroots o ho).1 hc hoid
    have hcl : c.linkedId = none := (h1 c hc).mp (hoc ▸ (hroots o ho).2)
    rw [foldRow_demoted hcl hrdist htid ⟨o, ho, hoid⟩]
    rw [mergeRow, if_pos hcid]
  · have hcid' : ∀ o ∈ rest, c.id ≠ o.id := by
      intro o ho h
      exact hcid (List.mem_map.mpr ⟨o, ho, h.symm⟩)
    cases hcl : c.linkedId with
    | none =>
        rw [foldRow_untouched fun o ho => ⟨hcid' o ho, by simp [hcl]⟩]
        rw [mergeRow, if_neg hcid, hcl]
    | some r =>
        by_cases hrmem : r ∈ rest.map (·.id)
        · obtain ⟨o, ho, hoid⟩ := List.mem_map.mp hrmem
          rw [foldRow_reattached hcl hcid' htid ⟨o, ho, hoid⟩]
          rw [mergeRow, if_neg hcid, hcl]
          dsimp only
          rw [if_pos hrmem]
        · have hnol : ∀ o ∈ rest, c.linkedId ≠ some o.id := by
            intro o ho hh
            rw [hcl] at hh
            exact hrmem (List.mem_map.mpr
              ⟨o, ho, ((Option.some.injEq r o.id).mp hh).symm⟩)
          rw [foldRow_untouched fun o ho => ⟨hcid' o ho, hnol o ho⟩]
          rw [mergeRow, if_neg hcid, hcl]
          dsimp only
          rw [if_neg hrmem]

/-! ## Case analysis of the closed merge form -/

theorem mergeRow_cases (t now : Nat) (ids : List Nat) (c : Contact) :
    (c.id ∈ ids ∧ mergeRow t now ids c =
        { c with linkPrecedence := .secondary, linkedId := some t,
                 updatedAt := now }) ∨
    (c.id ∉ ids ∧ (∃ r, c.linkedId = some r ∧ r ∈ ids) ∧ mergeRow t now ids c =
        { c with linkedId := some t, updatedAt := now }) ∨
    (c.id ∉ ids ∧ mergeRow t now ids c = c ∧
      ∀ r, c.linkedId = some r → r ∉ ids) := by
  by_cases h1 : c.id ∈ ids
  · refine Or.inl ⟨h1, ?_⟩
    unfold mergeRow
    rw [if_pos h1]
  · cases hcl : c.linkedId with
    | none =>
        refine Or.inr (Or.inr ⟨h1, ?_, ?_⟩)
        · unfold mergeRow
          rw [if_neg h1, hcl]
        · intro r hr
          exact Option.noConfusion hr
    | some r =>
        by_cases h2 : r ∈ ids
        · refine Or.inr (Or.inl ⟨h1, ⟨r, rfl, h2⟩, ?_⟩)
          unfold mergeRow
          rw [if_neg h1, hcl]
          dsimp only
          rw [if_pos h2]
        · refine Or.inr (Or.inr ⟨h1, ?_, ?_⟩)
          · unfold mergeRow
            rw [if_neg h1, hcl]
            dsimp only
            rw [if_neg h2]
          · intro r' hr'
            injection hr' with hh
            subst hh
            exact h2

theorem mergeRow_proj (t now : Nat) (ids : List Nat) (c : Contact) :
    (mergeRow t now ids c).id = c.id ∧
    (mergeRow t now ids c).createdAt = c.createdAt ∧
    (mergeRow t now ids c).deletedAt = c.deletedAt ∧
    (mergeRow t now ids c).email = c.email ∧
    (mergeRow t now ids c).phoneNumber = c.phoneNumber := by
  rcases mergeRow_cases t now ids c with ⟨-, h⟩ | ⟨-, -, h⟩ | ⟨-, h, -⟩ <;>
    rw [h] <;> exact ⟨rfl, rfl, rfl, rfl, rfl⟩

theorem mergeRow_none_fixed {t now : Nat} {ids : List Nat} {c : Contact}
    (hcl : c.linkedId = none) (hid : c.id ∉ ids) :
    mergeRow t now ids c = c := by
  unfold mergeRow
  rw [if_neg hid, hcl]

/-! ## The merge loop preserves the invariant -/

theorem Inv_mergeLoop {db : DB} {tc : Contact} {rest : List Contact}
    (hInv : Inv db) (htc : tc ∈ db.contacts)
    (htcp : tc.linkPrecedence = .primary)
    (hroots : ∀ o ∈ rest, o ∈ db.contacts ∧ o.linkPrecedence = .primary ∧
      tc.createdAt ≤ o.createdAt)
    (htcid : ∀ o ∈ rest, tc.id ≠ o.id)
    (hrdist : List.Pairwise (fun a b => a.id ≠ b.id) rest) :
    Inv (mergeLoop db tc.id rest) ∧
      tc ∈ (mergeLoop db tc.id rest).contacts ∧
      (mergeLoop db tc.id rest).nextId = db.nextId ∧
      (mergeLoop db tc.id rest).now = db.now := by
  obtain ⟨⟨hdist, hlt, hnowle⟩, hdel, h1, h23, h4⟩ := hInv
  have hrows := mergeLoop_rows db tc.id rest hdist h1
    (fun o ho => ⟨(hroots o ho).1, (hroots o ho).2.1⟩) htcid hrdist
  have htcnone : tc.linkedId = none := (h1 tc htc).mp htcp
  have htcnotin : tc.id ∉ rest.map (·.id) := by
    intro hmem
    obtain ⟨o, ho, hoid⟩ := List.mem_map.mp hmem
    exact htcid o ho hoid.symm
  have htcfix : mergeRow tc.id db.now (rest.map (·.id)) tc = tc :=
    mergeRow_none_fixed htcnone htcnotin
  have htcmem' : tc ∈ db.contacts.map (mergeRow tc.id db.now (rest.map (·.id))) := by
    have hh := List.mem_map_of_mem (mergeRow tc.id db.now (rest.map (·.id))) htc
    rw [htcfix] at hh
    exact hh
  refine ⟨?_, by rw [hrows]; exact htcmem', by rw [hrows], by rw [hrows]⟩
  rw [hrows]
  refine ⟨⟨?_, ?_, ?_⟩, ?_, ?_, ?_, ?_⟩
  · rw [List.pairwise_map]
    refine hdist.imp ?_
    intro a b hab
    rw [(mergeRow_proj _ _ _ a).1, (mergeRow_proj _ _ _ b).1]
    exact hab
  · intro c' hc'
    obtain ⟨c, hc, rfl⟩ := List.mem_map.mp hc'
    rw [(mergeRow_proj _ _ _ c).1]
    exact hlt c hc
  · intro c' hc'
    obtain ⟨c, hc, rfl⟩ := List.mem_map.mp hc'
    rw [(mergeRow_proj _ _ _ c).2.1]
    exact hnowle c hc
  · intro c' hc'
    obtain ⟨c, hc, rfl⟩ := List.mem_map.mp hc'
    rw [(mergeRow_proj _ _ _ c).2.2.1]
    exact hdel c hc
  · intro c' hc'
    obtain ⟨c, hc, rfl⟩ := List.mem_map.mp hc'
    rcases mergeRow_cases tc.id db.now (rest.map (·.id)) c with
      ⟨hin, heq⟩ | ⟨hnin, ⟨r, hcl, hrin⟩, heq⟩ | ⟨hnin, heq, hnol⟩
    · rw [heq]
      constructor
      · intro hp
        cases hp
      · intro hl
        cases hl
    · rw [heq]
      constructor
      · intro hp
        have : c.linkedId = none := (h1 c hc).mp hp
        rw [hcl] at this
        cases this
      · intro hl
        cases hl
    · rw [heq]
      exact h1 c hc
  · intro c' hc' r' hl'
    obtain ⟨c, hc, rfl⟩ := List.mem_map.mp hc'
    rcases mergeRow_cases tc.id db.now (rest.map (·.id)) c with
      ⟨hin, heq⟩ | ⟨hnin, ⟨r, hcl, hrin⟩, heq⟩ | ⟨hnin, heq, hnol⟩
    · rw [heq] at hl'
      injection hl' with hh
      exact ⟨tc, htcmem', hh, htcp⟩
    · rw [heq] at hl'
      injection hl' with hh
      exact ⟨tc, htcmem', hh, htcp⟩
    · rw [heq] at hl'
      obtain ⟨q, hq, hqid, hqprim⟩ := h23 c hc r' hl'
      have hqnone : q.linkedId = none := (h1 q hq).mp hqprim
      have hqnotin : q.id ∉ rest.map (·.id) := by
        rw [hqid]
        exact hnol r' hl'
      have hqfix : mergeRow tc.id db.now (rest.map (·.id)) q = q :=
        mergeRow_none_fixed hqnone hqnotin
      have hqmem' : q ∈ db.contacts.map
          (mergeRow tc.id db.now (rest.map (·.id))) := by
        have hh := List.mem_map_of_mem (mergeRow tc.id db.now (rest.map (·.id))) hq
        rw [hqfix] at hh
        exact hh
      exact ⟨q, hqmem', hqid, hqprim⟩
  · intro c' hc' r' hl'
    obtain ⟨c, hc, rfl⟩ := List.mem_map.mp hc'
    rcases mergeRow_cases tc.id db.now (rest.map (·.id)) c with
      ⟨hin, heq⟩ | ⟨hnin, ⟨r, hcl, hrin⟩, heq⟩ | ⟨hnin, heq, hnol⟩
    · obtain ⟨o, ho, hoid⟩ := List.mem_map.mp hin
      have hoc : o = c := id_unique hdist (hroots o ho).1 hc hoid
      rw [heq] at hl'
      injection hl' with hh
      refine ⟨tc, htcmem', hh, ?_⟩
      rw [heq]
      have : tc.createdAt ≤ o.createdAt := (hroots o ho).2.2
      rw [hoc] at this
      exact this
    · obtain ⟨o, ho, hoid⟩ := List.mem_map.mp hrin
      obtain ⟨w, hw, hwid, hwle⟩ := h4 c hc r hcl
      have hwo : w = o := id_unique hdist hw (hroots o ho).1 (hwid.trans hoid.symm)
      rw [heq] at hl'
      injection hl' with hh
      refine ⟨tc, htcmem', hh, ?_⟩
      rw [heq]
      have h1le : tc.createdAt ≤ o.createdAt := (hroots o ho).2.2
      have h2le : w.createdAt ≤ c.createdAt := hwle
      rw [hwo] at h2le
      exact Nat.le_trans h1le h2le
    · rw [heq] at hl'
      obtain ⟨w, hw, hwid, hwle⟩ := h4 c hc r' hl'
      refine ⟨mergeRow tc.id db.now (rest.map (·.id)) w,
        List.mem_map_of_mem _ hw, ?_, ?_⟩
      · rw [(mergeRow_proj _ _ _ w).1]
        exact hwid
      · rw [(mergeRow_proj _ _ _ w).2.1, heq]
        exact hwle

/-! ## Unfolding `identify` along its main path -/

/-- On a non-empty candidate lookup, `identify` merges onto the head of the
sorted root list, conditionally creates a secondary, and builds the response. -/
theorem identify_main_eq (e p : Option String) (db : DB) (t : Contact)
    (rest : List Contact)
    (h : resolveRootsSorted db (findByEmailOrPhone db e p) = t :: rest) :
    identify e p db =
      ((if _isNewInfo e p (findAllInCluster (mergeLoop db t.id rest) t.id) then
          (createContact (mergeLoop db t.id rest)
            ⟨e, p, some t.id, .secondary⟩).2
        else mergeLoop db t.id rest),
       _buildResponse
         (if _isNewInfo e p (findAllInCluster (mergeLoop db t.id rest) t.id) then
            (createContact (mergeLoop db t.id rest)
              ⟨e, p, some t.id, .secondary⟩).2
          else mergeLoop db t.id rest) t.id) := by
  have hne : findByEmailOrPhone db e p ≠ [] := resolveRootsSorted_input_ne_nil h
  simp only [identify]
  rw [if_neg (by simpa using hne), h]


/-! ## Creation preserves the invariant -/

theorem Inv_create {db : DB} (hInv : Inv db) (d : CreateData)
    (hlink : (d.linkedId = none ∧ d.linkPrecedence = .primary) ∨
      (∃ tc ∈ db.contacts, d.linkedId = some tc.id ∧
        tc.linkPrecedence = .primary ∧ d.linkPrecedence = .secondary)) :
    Inv (createContact db d).2 := by
  obtain ⟨⟨hdist, hlt, hnowle⟩, hdel, h1, h23, h4⟩ := hInv
  unfold createContact
  dsimp only
  refine ⟨⟨?_, ?_, ?_⟩, ?_, ?_, ?_, ?_⟩
  · apply List.pairwise_append.mpr
    refine ⟨hdist, List.pairwise_singleton _ _, ?_⟩
    intro a ha b hb
    rw [List.mem_singleton] at hb
    subst hb
    exact Nat.ne_of_lt (hlt a ha)
  · intro c hc
    rcases List.mem_append.mp hc with hc | hc
    · exact Nat.lt_trans (hlt c hc) (Nat.lt_succ_self _)
    · rw [List.mem_singleton] at hc
      subst hc
      exact Nat.lt_succ_self _
  · intro c hc
    rcases List.mem_append.mp hc with hc | hc
    · exact Nat.le_trans (hnowle c hc) (Nat.le_succ _)
    · rw [List.mem_singleton] at hc
      subst hc
      exact Nat.le_succ _
  · intro c hc
    rcases List.mem_append.mp hc with hc | hc
    · exact hdel c hc
    · rw [List.mem_singleton] at hc
      subst hc
      rfl
  · intro c hc
    rcases List.mem_append.mp hc with hc | hc
    · exact h1 c hc
    · rw [List.mem_singleton] at hc
      subst hc
      rcases hlink with ⟨hl, hp⟩ | ⟨tc, -, hl, -, hp⟩
      · simp [hl, hp]
      · constructor
        · intro hprim
          rw [hp] at hprim
          cases hprim
        · intro hnone
          dsimp only at hnone
          rw [hl] at hnone
          cases hnone
  · intro c hc r hl'
    rcases List.mem_append.mp hc with hc | hc
    · obtain ⟨q, hq, hqid, hqprim⟩ := h23 c hc r hl'
      exact ⟨q, List.mem_append_left _ hq, hqid, hqprim⟩
    · rw [List.mem_singleton] at hc
      subst hc
      dsimp only at hl'
      rcases hlink with ⟨hl, -⟩ | ⟨tc, htcm, hl, htcp, -⟩
      · rw [hl] at hl'
        cases hl'
      · rw [hl] at hl'
        injection hl' with hh
        exact ⟨tc, List.mem_append_left _ htcm, hh, htcp⟩
  · intro c hc r hl'
    rcases List.mem_append.mp hc with hc | hc
    · obtain ⟨q, hq, hqid, hqle⟩ := h4 c hc r hl'
      exact ⟨q, List.mem_append_left _ hq, hqid, hqle⟩
    · rw [List.mem_singleton] at hc
      subst hc
      dsimp only at hl' ⊢
      rcases hlink with ⟨hl, -⟩ | ⟨tc, htcm, hl, -, -⟩
      · rw [hl] at hl'
        cases hl'
      · rw [hl] at hl'
        injection hl' with hh
        exact ⟨tc, List.mem_append_left _ htcm, hh, hnowle tc htcm⟩

/-! ## `identify` preserves the invariant -/

theorem resolveRootsSorted_ne_nil {db : DB} {m : Contact} {ms : List Contact} :
    resolveRootsSorted db (m :: ms) ≠ [] := by
  unfold resolveRootsSorted
  intro h
  exact resolveRoots_ne_nil (sortByLe_eq_nil.mp h)

theorem identify_preserves_Inv (e p : Option String) {db : DB} (hInv : Inv db) :
    Inv (identify e p db).1 := by
  by_cases hm : (findByEmailOrPhone db e p).isEmpty = true
  · simp only [identify]
    rw [if_pos hm]
    exact Inv_create hInv _ (Or.inl ⟨rfl, rfl⟩)
  · cases hr : resolveRootsSorted db (findByEmailOrPhone db e p) with
    | nil =>
        exfalso
        cases hmm : findByEmailOrPhone db e p with
        | nil => rw [hmm] at hm; exact hm rfl
        | cons m ms =>
            rw [hmm] at hr
            exact resolveRootsSorted_ne_nil hr
    | cons t rest =>
        rw [identify_main_eq e p db t rest hr]
        dsimp only
        obtain ⟨hmem, hdisttr, hcre⟩ := rootsSorted_spec hInv hr
        have htc := hmem t (List.mem_cons_self _ _)
        obtain ⟨hhead, htail⟩ := List.pairwise_cons.mp hdisttr
        have hIm := Inv_mergeLoop hInv htc.1 htc.2
          (fun o ho => ⟨(hmem o (List.mem_cons_of_mem _ ho)).1,
            (hmem o (List.mem_cons_of_mem _ ho)).2,
            hcre o (List.mem_cons_of_mem _ ho)⟩)
          hhead htail
        by_cases hni : _isNewInfo e p
            (findAllInCluster (mergeLoop db t.id rest) t.id) = true
        · rw [if_pos hni]
          exact Inv_create hIm.1 _ (Or.inr ⟨t, hIm.2.1, rfl, htc.2, rfl⟩)
        · rw [if_neg hni]
          exact hIm.1

/-! ## C2 — amended theorem -/

/-- C2 (amended): starting from a state that satisfies invariants I1–I4,
structural well-formedness, and in which no contact is soft-deleted, after
every sequence of identify calls each non-null `linkedId` is the id of a
PRIMARY contact (a SECONDARY never points at another SECONDARY) and the whole
invariant set still holds.  With no soft-deleted rows the dangling-`linkedId`
fallback is never taken; the counterexample shows the original claim fails
when a SECONDARY's parent is soft-deleted. -/
theorem C2_theorem (reqs : List (Option String × Option String)) (db : DB)
    (hInv : Inv db) :
    Inv (reqs.foldl (fun d r => (identify r.1 r.2 d).1) db) ∧
    I2I3holds (reqs.foldl (fun d r => (identify r.1 r.2 d).1) db) := by
  suffices h : Inv (reqs.foldl (fun d r => (identify r.1 r.2 d).1) db) by
    exact ⟨h, h.2.2.2.1⟩
  induction reqs generalizing db with
  | nil => exact hInv
  | cons r rs ih => exact ih _ (identify_preserves_Inv r.1 r.2 hInv)

/-- Witness for `C2_theorem`: one merging call on the two-cluster store. -/
theorem C2_witness :
    Inv dbC6 ∧
    (Inv ([(some "george@hillvalley.edu", some "727272")].foldl
        (fun d r => (identify r.1 r.2 d).1) dbC6) ∧
     I2I3holds ([(some "george@hillvalley.edu", some "727272")].foldl
        (fun d r => (identify r.1 r.2 d).1) dbC6)) :=
  ⟨by decide, C2_theorem [(some "george@hillvalley.edu", some "727272")] dbC6
    (by decide)⟩

/-- C3 (amended): for every identify call whose candidate lookup resolves at
least one root, the surviving root `t` (the head of the sorted root list used
by the merge step) has the earliest `createdAt` among all resolved roots, and
every root resolved before `t` from the candidate list was created strictly
later — so a `createdAt` tie is broken by first-resolution order, not by
ascending id. -/
theorem C3_theorem (e p : Option String) (db : DB) (t : Contact)
    (rest : List Contact)
    (h : resolveRootsSorted db (findByEmailOrPhone db e p) = t :: rest) :
    (∀ r ∈ resolveRoots db (findByEmailOrPhone db e p),
        t.createdAt ≤ r.createdAt) ∧
    ∃ l₁ l₂, resolveRoots db (findByEmailOrPhone db e p) = l₁ ++ t :: l₂ ∧
      ∀ r ∈ l₁, t.createdAt < r.createdAt := by
  constructor
  · intro r hr
    have := @sortByLe_head_min _ byCreatedAt
      (fun x y => by
        unfold byCreatedAt
        rcases Nat.le_total x.createdAt y.createdAt with hxy | hxy
        · exact Or.inl (decide_eq_true hxy)
        · exact Or.inr (decide_eq_true hxy))
      (fun x y z hxy hyz => by
        unfold byCreatedAt at *
        exact decide_eq_true (Nat.le_trans (of_decide_eq_true hxy) (of_decide_eq_true hyz)))
      _ _ _ h r hr
    exact of_decide_eq_true this
  · obtain ⟨l₁, l₂, heq, hall⟩ := sortByLe_head_first h
    refine ⟨l₁, l₂, heq, fun r hr => ?_⟩
    have := hall r hr
    unfold byCreatedAt at this
    have := of_decide_eq_false this
    omega

/-- Witness for `C3_theorem` at a concrete input (a two-cluster store). -/
theorem C3_witness :
    resolveRootsSorted dbC6 (findByEmailOrPhone dbC6
        (some "george@hillvalley.edu") (some "727272")) =
      ⟨1, some "919191", some "george@hillvalley.edu", none, .primary, 0, 0, none⟩ ::
        [⟨2, some "717171", some "biffsucks@hillvalley.edu", none, .primary, 1, 1,
          none⟩] ∧
    ((∀ r ∈ resolveRoots dbC6 (findByEmailOrPhone dbC6
          (some "george@hillvalley.edu") (some "727272")),
        (⟨1, some "919191", some "george@hillvalley.edu", none, .primary, 0, 0,
          none⟩ : Contact).createdAt ≤ r.createdAt) ∧
      ∃ l₁ l₂, resolveRoots dbC6 (findByEmailOrPhone dbC6
          (some "george@hillvalley.edu") (some "727272")) =
          l₁ ++ ⟨1, some "919191", some "george@hillvalley.edu", none, .primary, 0,
            0, none⟩ :: l₂ ∧
        ∀ r ∈ l₁, (⟨1, some "919191", some "george@hillvalley.edu", none, .primary,
          0, 0, none⟩ : Contact).createdAt < r.createdAt) :=
  ⟨by decide,
   C3_theorem (some "george@hillvalley.edu") (some "727272") dbC6
     ⟨1, some "919191", some "george@hillvalley.edu", none, .primary, 0, 0, none⟩
     [⟨2, some "717171", some "biffsucks@hillvalley.edu", none, .primary, 1, 1,
       none⟩]
     (by decide)⟩

/-- The code's `_isNewInfo` agrees with the amended spec formula (a field
counts only when it is a non-empty string). -/
theorem isNewInfo_iff (e p : Option String) (l : List Contact) :
    _isNewInfo e p l = true ↔ specIsNewTruthy e p l := by
  unfold _isNewInfo specIsNewTruthy
  simp only [Bool.or_eq_true, Bool.and_eq_true, Bool.not_eq_true',
    List.any_eq_false, Bool.and_eq_false_iff, decide_eq_false_iff_not,
    decide_eq_true_eq]
  constructor
  · rintro (⟨hte, hall⟩ | ⟨htp, hall⟩)
    · exact Or.inl ⟨hte, fun c hc hh => hall c hc ⟨hte, hh⟩⟩
    · exact Or.inr ⟨htp, fun c hc hh => hall c hc ⟨htp, hh⟩⟩
  · rintro (⟨hte, hall⟩ | ⟨htp, hall⟩)
    · exact Or.inl ⟨hte, fun c hc hh => hall c hc hh.2⟩
    · exact Or.inr ⟨htp, fun c hc hh => hall c hc hh.2⟩

/-! ## C1 — amended theorem -/

/-- The surviving root of `dbC1`. -/
def rootC1 : Contact := ⟨1, some "p1", some "a@x.co", none, .primary, 0, 0, none⟩

/-- C1 (amended): for every call whose candidate lookup resolves roots
`t :: rest`, a new SECONDARY linked to the surviving root `t` is created if
and only if (a non-empty email was supplied and no member of the merged
cluster has that email) or (a non-empty phone was supplied and no member has
that phone) — a null, undefined or empty-string field contributes nothing;
and a call supplying only an email already present in the single resolved
cluster performs zero writes and returns the existing view unchanged. -/
theorem C1_theorem (e p : Option String) (db : DB) (t : Contact)
    (rest : List Contact)
    (h : resolveRootsSorted db (findByEmailOrPhone db e p) = t :: rest) :
    ((identify e p db).1 =
        (createContact (mergeLoop db t.id rest)
          ⟨e, p, some t.id, .secondary⟩).2 ↔
      specIsNewTruthy e p (findAllInCluster (mergeLoop db t.id rest) t.id)) ∧
    (rest = [] → p = none →
      (∃ c ∈ findAllInCluster db t.id, c.email = e) →
      (identify e p db).1 = db ∧ (identify e p db).2 = _buildResponse db t.id) := by
  have hmain := identify_main_eq e p db t rest h
  constructor
  · cases hni : _isNewInfo e p (findAllInCluster (mergeLoop db t.id rest) t.id) with
    | true =>
        constructor
        · intro _
          exact (isNewInfo_iff e p _).mp hni
        · intro _
          rw [hmain]
          simp [hni]
    | false =>
        constructor
        · intro heq
          rw [hmain] at heq
          simp only [hni, if_neg Bool.false_ne_true] at heq
          have : (mergeLoop db t.id rest).nextId =
              (mergeLoop db t.id rest).nextId + 1 := congrArg DB.nextId heq
          omega
        · intro hspec
          rw [← isNewInfo_iff e p _] at hspec
          rw [hni] at hspec
          cases hspec
  · rintro rfl rfl ⟨c, hc, hce⟩
    have hml : mergeLoop db t.id [] = db := rfl
    have hni : _isNewInfo e none (findAllInCluster db t.id) = false := by
      have hany : ((findAllInCluster db t.id).any
          fun x => truthy e && decide (x.email = e)) = truthy e := by
        cases hte : truthy e with
        | false => simp
        | true => exact List.any_eq_true.mpr ⟨c, hc, by simp [hte, hce]⟩
      simp only [_isNewInfo, hany]
      simp [truthy]
    rw [hmain]
    rw [hml] at *
    simp [hni]

/-- Witness for `C1_theorem` on a one-contact store with a fresh email and a
matching phone. -/
theorem C1_witness :
    resolveRootsSorted dbC1 (findByEmailOrPhone dbC1 (some "b@x.co") (some "p1")) =
      rootC1 :: [] ∧
    (((identify (some "b@x.co") (some "p1") dbC1).1 =
        (createContact (mergeLoop dbC1 rootC1.id [])
          ⟨some "b@x.co", some "p1", some rootC1.id, .secondary⟩).2 ↔
      specIsNewTruthy (some "b@x.co") (some "p1")
        (findAllInCluster (mergeLoop dbC1 rootC1.id []) rootC1.id)) ∧
    (([] : List Contact) = [] → (some "p1" : Option String) = none →
      (∃ c ∈ findAllInCluster dbC1 rootC1.id, c.email = some "b@x.co") →
      (identify (some "b@x.co") (some "p1") dbC1).1 = dbC1 ∧
      (identify (some "b@x.co") (some "p1") dbC1).2 =
        _buildResponse dbC1 rootC1.id)) :=
  ⟨by decide, C1_theorem (some "b@x.co") (some "p1") dbC1 rootC1 [] (by decide)⟩

/-! ## C1 — counterexample -/

/-- C1 is false as stated: for the call `identify("", "p1")` on `dbC1` the
candidate lookup is non-empty and the claim's condition holds — the email was
supplied (`"" ≠ null`) and no cluster member carries email `""` — so the claim
requires a new SECONDARY; but the call performs zero writes (the empty string
is falsy, so the code ignores the supplied email entirely). -/
theorem C1_counterexample :
    findByEmailOrPhone dbC1 (some "") (some "p1") ≠ [] ∧
    specIsNewSupplied (some "") (some "p1")
      (findAllInCluster (identify (some "") (some "p1") dbC1).1 1) ∧
    (identify (some "") (some "p1") dbC1).1 = dbC1 := by decide

/-! ## C2 — counterexample -/

/-- C2 is false as stated: `dbC2` satisfies I1–I4, yet
`identify("b@x.co", "p3")` resolves the secondary id 2 through its
soft-deleted parent id 1, takes the dangling-`linkedId` fallback (the root
fetch filters `deletedAt`), treats the SECONDARY id 2 as a root and demotes
id 3 onto it — leaving a SECONDARY whose `linkedId` is the id of another
SECONDARY. -/
theorem C2_counterexample :
    I1holds dbC2 ∧ I2I3holds dbC2 ∧ I4holds dbC2 ∧ WFholds dbC2 ∧
    ¬ I2I3holds (identify (some "b@x.co") (some "p3") dbC2).1 := by decide

/-! ## C3 — counterexample -/

/-- C3 is false as stated: on `dbC3` the call `identify("s2@x.co", "x4")`
resolves the two roots 2 and 1 (in that order, because the matched secondary
of root 2 is older), both with `createdAt = 0`; the code's sort compares only
`createdAt`, so the tie is not broken by ascending id — the root with the
HIGHER id (2) survives and the lower id 1 is demoted onto it. -/
theorem C3_counterexample :
    Inv dbC3 ∧
    (resolveRootsSorted dbC3
        (findByEmailOrPhone dbC3 (some "s2@x.co") (some "x4"))).map (·.id) = [2, 1] ∧
    (resolveRootsSorted dbC3
        (findByEmailOrPhone dbC3 (some "s2@x.co") (some "x4"))).map (·.createdAt) = [0, 0] ∧
    (getById (identify (some "s2@x.co") (some "x4") dbC3).1 1).map (·.linkPrecedence) =
      some .secondary ∧
    (getById (identify (some "s2@x.co") (some "x4") dbC3).1 1).map (·.linkedId) =
      some (some 2) ∧
    (getById (identify (some "s2@x.co") (some "x4") dbC3).1 2).map (·.linkPrecedence) =
      some .primary := by decide

/-! ## C5 — counterexample -/

/-- C5 is false as stated: the pair `(null, "")` satisfies the stated
precondition (the phone is not absent), but on the empty store the second
identical call performs a write (a second fresh PRIMARY is created, because
the empty string is falsy and the candidate lookup pushes no condition) and
returns a different response. -/
theorem C5_counterexample :
    (identify none (some "") ((identify none (some "") ⟨[], 1, 0⟩).1)).1 ≠
        (identify none (some "") ⟨[], 1, 0⟩).1 ∧
    (identify none (some "") ((identify none (some "") ⟨[], 1, 0⟩).1)).2 ≠
        (identify none (some "") ⟨[], 1, 0⟩).2 := by decide

/-! ## C6 — counterexample -/

/-- C6 is false as stated: the repository issues each store statement
independently (there is no transaction), so a failure after the first write of
`identify("george@hillvalley.edu", "727272")` on `dbC6` — the reparent of the
stale root's secondary, issued before the matching demote — leaves a persisted
state that differs from the pre-call state. -/
theorem C6_counterexample :
    (identifyWriteTrace (some "george@hillvalley.edu") (some "727272") dbC6).head? ≠
        none ∧
    (identifyWriteTrace (some "george@hillvalley.edu") (some "727272") dbC6).head? ≠
        some dbC6 := by decide

/-! ## C6 — amended theorem -/

theorem mergeTrace_getLastD (db : DB) (t : Nat) (rest : List Contact) :
    (mergeTrace db t rest).getLastD db = mergeLoop db t rest := by
  induction rest generalizing db with
  | nil => rfl
  | cons o os ih =>
      simp only [mergeTrace, mergeLoop]
      rw [List.getLastD_cons, List.getLastD_cons]
      exact ih _

/-- C6 (amended): `identify` issues its writes as independent store statements
with no enclosing transaction.  The write trace ends exactly in the state
`identify` persists, and in the two-cluster merge on `dbC6` the trace consists
of two states: after the reparent (the stale root id 2 is still PRIMARY while
its secondary id 3 already points at the target id 1 — a partially-applied
cluster state differing from the pre-call state, which is what persists if the
store fails before the demote) and after the demote. -/
theorem C6_theorem :
    (∀ (e p : Option String) (db : DB),
      (identifyWriteTrace e p db).getLastD db = (identify e p db).1) ∧
    identifyWriteTrace (some "george@hillvalley.edu") (some "727272") dbC6 =
      [⟨[⟨1, some "919191", some "george@hillvalley.edu", none, .primary, 0, 0,
           none⟩,
         ⟨2, some "717171", some "biffsucks@hillvalley.edu", none, .primary, 1, 1,
           none⟩,
         ⟨3, some "727272", some "match@hillvalley.edu", some 1, .secondary, 2, 10,
           none⟩], 4, 10⟩,
       ⟨[⟨1, some "919191", some "george@hillvalley.edu", none, .primary, 0, 0,
           none⟩,
         ⟨2, some "717171", some "biffsucks@hillvalley.edu", some 1, .secondary, 1,
           10, none⟩,
         ⟨3, some "727272", some "match@hillvalley.edu", some 1, .secondary, 2, 10,
           none⟩], 4, 10⟩] := by
  constructor
  · intro e p db
    simp only [identifyWriteTrace, identify]
    by_cases hm : (findByEmailOrPhone db e p).isEmpty = true
    · rw [if_pos hm, if_pos hm]
      rfl
    · rw [if_neg hm, if_neg hm]
      cases hr : resolveRootsSorted db (findByEmailOrPhone db e p) with
      | nil => rfl
      | cons t rest =>
          dsimp only
          by_cases hni : _isNewInfo e p
              (findAllInCluster (mergeLoop db t.id rest) t.id) = true
          · rw [if_pos hni, if_pos hni, List.getLastD_concat]
          · rw [if_neg hni, if_neg hni]
            exact mergeTrace_getLastD db t.id rest
  · decide

/-! ## C7 — counterexample -/

/-- C7 is false as stated: on `dbC7` the cluster's root carries the email
`""`; the claimed assembly (null values dropped, duplicates removed) would
return `emails = [""]`, but the response's `emails` is `[]` — the code's
deduplication also drops empty strings (`if (!v || …)`). -/
theorem C7_counterexample :
    (identify none (some "9") dbC7).2 = some ⟨1, [], ["9"], []⟩ ∧
    (findAllInCluster (identify none (some "9") dbC7).1 1).map (·.email) =
      [some ""] ∧
    specCollapse [some ""] = [""] := by decide

/-! ## C8 — counterexample and amended theorem -/

/-- C8 is false as stated: the candidate lookup returns nothing for the
soft-deleted contact of `dbC8` but returns the identical contact of `dbC8'`
whose `deletedAt` is null — a deleted contact is NOT returned the same. -/
theorem C8_counterexample :
    findByEmailOrPhone dbC8 (some "a@x.co") none = [] ∧
    findByEmailOrPhone dbC8' (some "a@x.co") none =
      [⟨1, none, some "a@x.co", none, .primary, 0, 0, none⟩] := by decide

/-- C8 (amended): every lookup the Reconciler performs — candidate lookup,
root fetch by id, cluster fetch — filters on `deletedAt` and returns only
contacts whose `deletedAt` is null. -/
theorem C8_theorem (db : DB) (e p : Option String) (i pid : Nat) :
    ((findByEmailOrPhone db e p).all fun c => c.deletedAt.isNone) = true ∧
    ((findById db i).all fun c => c.deletedAt.isNone) = true ∧
    ((findAllInCluster db pid).all fun c => c.deletedAt.isNone) = true := by
  refine ⟨?_, ?_, ?_⟩
  · rw [List.all_eq_true]
    intro c hc
    unfold findByEmailOrPhone at hc
    split at hc
    · exact absurd hc (List.not_mem_nil c)
    · have := List.mem_filter.mp (mem_sortByLe.mp hc)
      have h2 := this.2
      simp only [Bool.and_eq_true, decide_eq_true_eq] at h2
      simp [h2.1]
  · cases h : findById db i with
    | none => rfl
    | some c =>
        have := List.find?_some h
        simp only [Bool.and_eq_true, decide_eq_true_eq] at this
        simp [Option.all, this.1]
  · rw [List.all_eq_true]
    intro c hc
    have := List.mem_filter.mp (mem_sortByLe.mp hc)
    have h2 := this.2
    simp only [Bool.and_eq_true, decide_eq_true_eq] at h2
    simp [h2.1]

/-! ## C9 — counterexample and amended theorem -/

/-- C9 is false as stated for the email half: an empty-string email is NOT
accepted by the input validator — `z.string().email()` rejects `""` with
"Invalid email format" (with or without an accompanying phone). -/
theorem C9_counterexample :
    identifySchemaAccepts (some "") none = false ∧
    identifySchemaAccepts (some "") (some "123") = false := by decide

/-- C9 (amended): an empty-string PHONE is accepted by the validator as
provided, but the core treats it as absent: the candidate lookup with email
absent and phone `""` pushes no condition and matches nothing, so every such
call creates a fresh PRIMARY storing the empty string verbatim, and repeating
the call creates another new record. -/
theorem C9_theorem :
    identifySchemaAccepts none (some "") = true ∧
    (∀ db : DB, findByEmailOrPhone db none (some "") = []) ∧
    (∀ db : DB, (identify none (some "") db).1.contacts =
      db.contacts ++
        [⟨db.nextId, some "", none, none, .primary, db.now, db.now, none⟩]) ∧
    (∀ db : DB,
      (identify none (some "") (identify none (some "") db).1).1.contacts =
        db.contacts ++
          [⟨db.nextId, some "", none, none, .primary, db.now, db.now, none⟩,
           ⟨db.nextId + 1, some "", none, none, .primary, db.now + 1, db.now + 1,
            none⟩]) := by
  refine ⟨rfl, fun db => rfl, fun db => rfl, fun db => ?_⟩
  show (db.contacts ++ [_]) ++ [_] = _
  rw [List.append_assoc]
  rfl

/-! ## C4 — reparent strictly before demote -/

/-- Every intermediate state of the merge loop (after each reparent and after
each demote) still satisfies I2/I3: every non-null `linkedId` is the id of a
contact that is PRIMARY in that very state. -/
theorem mergeTrace_invariant {tc : Contact} {rest : List Contact} :
    ∀ {db : DB}, Inv db → tc ∈ db.contacts → tc.linkPrecedence = .primary →
    (∀ o ∈ rest, o ∈ db.contacts ∧ o.linkPrecedence = .primary ∧
      tc.createdAt ≤ o.createdAt) →
    (∀ o ∈ rest, tc.id ≠ o.id) →
    List.Pairwise (fun a b => a.id ≠ b.id) rest →
    ∀ st ∈ mergeTrace db tc.id rest, I2I3holds st := by
  induction rest with
  | nil =>
      intro db _ _ _ _ _ _ st hst
      exact absurd hst (List.not_mem_nil _)
  | cons o os ih =>
      intro db hInv htc htcp hroots htid hrdist st hst
      obtain ⟨⟨hdist, hlt, hnowle⟩, hdel, h1, h23, h4⟩ := hInv
      have hInv' : Inv db := ⟨⟨hdist, hlt, hnowle⟩, hdel, h1, h23, h4⟩
      have ho := hroots o (List.mem_cons_self o os)
      have htcnone : tc.linkedId = none := (h1 tc htc).mp htcp
      have honone : o.linkedId = none := (h1 o ho.1).mp ho.2.1
      obtain ⟨hhead, htail⟩ := List.pairwise_cons.mp hrdist
      -- the state after the matching demote is `mergeLoop db tc.id [o]`
      have hone := @Inv_mergeLoop db tc [o] hInv' htc htcp
        (fun o' ho' => by
          rw [List.mem_singleton] at ho'
          rw [ho']
          exact ho)
        (fun o' ho' => by
          rw [List.mem_singleton] at ho'
          rw [ho']
          exact htid o (List.mem_cons_self o os))
        (List.pairwise_singleton _ _)
      have hdb2 : demoteContact (reattachSecondaries db o.id tc.id) o.id tc.id =
          mergeLoop db tc.id [o] := rfl
      simp only [mergeTrace] at hst
      rcases List.mem_cons.mp hst with rfl | hst
      · -- the state right after the reparent, before the demote
        intro c1 hc1 r hl1
        obtain ⟨c, hc, rfl⟩ := List.mem_map.mp hc1
        have htcfix : (if decide (tc.linkedId = some o.id) = true then
            { tc with linkedId := some tc.id, updatedAt := db.now }
          else tc) = tc := by
          rw [if_neg (by simp [htcnone])]
        have htcmem1 : tc ∈ (reattachSecondaries db o.id tc.id).contacts :=
          List.mem_map.mpr ⟨tc, htc, htcfix⟩
        by_cases hcc : c.linkedId = some o.id
        · rw [if_pos (by simp [hcc])] at hl1
          injection hl1 with hh
          exact ⟨tc, htcmem1, hh, htcp⟩
        · rw [if_neg (by simp [hcc])] at hl1
          obtain ⟨q, hq, hqid, hqprim⟩ := h23 c hc r hl1
          have hqnone : q.linkedId = none := (h1 q hq).mp hqprim
          have hqfix : (if decide (q.linkedId = some o.id) = true then
              { q with linkedId := some tc.id, updatedAt := db.now }
            else q) = q := by
            rw [if_neg (by simp [hqnone])]
          have hqmem1 : q ∈ (reattachSecondaries db o.id tc.id).contacts :=
            List.mem_map.mpr ⟨q, hq, hqfix⟩
          exact ⟨q, hqmem1, hqid, hqprim⟩
      rcases List.mem_cons.mp hst with rfl | hst
      · -- the state right after the demote
        rw [hdb2]
        exact hone.1.2.2.2.1
      · -- the remaining trace, running on the post-demote state
        have hosfix : ∀ o' ∈ os,
            mergeRow tc.id db.now ([o].map (·.id)) o' = o' := by
          intro o' ho'
          have ho'p := hroots o' (List.mem_cons_of_mem o ho')
          apply mergeRow_none_fixed ((h1 o' ho'p.1).mp ho'p.2.1)
          intro hmem
          rw [List.map_singleton, List.mem_singleton] at hmem
          exact hhead o' ho' hmem.symm
        have hrows := mergeLoop_rows db tc.id [o] hdist h1
          (fun o' ho' => by
            rw [List.mem_singleton] at ho'
            rw [ho']
            exact ⟨ho.1, ho.2.1⟩)
          (fun o' ho' => by
            rw [List.mem_singleton] at ho'
            rw [ho']
            exact htid o (List.mem_cons_self o os))
          (List.pairwise_singleton _ _)
        have hosmem : ∀ o' ∈ os, o' ∈ (mergeLoop db tc.id [o]).contacts ∧
            o'.linkPrecedence = .primary ∧ tc.createdAt ≤ o'.createdAt := by
          intro o' ho'
          have ho'p := hroots o' (List.mem_cons_of_mem o ho')
          refine ⟨?_, ho'p.2.1, ho'p.2.2⟩
          rw [hrows]
          have hh := List.mem_map_of_mem
            (mergeRow tc.id db.now ([o].map (·.id))) ho'p.1
          rw [hosfix o' ho'] at hh
          exact hh
        rw [hdb2] at hst
        exact ih hone.1 hone.2.1 htcp hosmem
          (fun o' ho' => htid o' (List.mem_cons_of_mem o ho')) htail st hst

/-- C4 (confirmed): in every merge performed by `identify` (surviving root
`t`, stale roots `rest`), each stale root's secondaries are re-pointed to the
target strictly before the stale root's own demotion, so that a secondary `S`
formerly linked to a stale root ends with `S.linkedId = t.id` after the merge,
and at every intermediate state of the merge (after each reparent and after
each demote) every non-null `linkedId` still references a contact that is
PRIMARY in that state — no secondary ever points at a demoted former root. -/
theorem C4_theorem (e p : Option String) (db : DB) (t : Contact)
    (rest : List Contact) (hInv : Inv db)
    (hr : resolveRootsSorted db (findByEmailOrPhone db e p) = t :: rest) :
    (∀ S ∈ db.contacts, ∀ o ∈ rest, S.linkedId = some o.id →
      ∃ S' ∈ (mergeLoop db t.id rest).contacts,
        S'.id = S.id ∧ S'.linkedId = some t.id) ∧
    (∀ st ∈ mergeTrace db t.id rest, I2I3holds st) := by
  obtain ⟨hmem, hdisttr, hcre⟩ := rootsSorted_spec hInv hr
  have htc := hmem t (List.mem_cons_self _ _)
  obtain ⟨hhead, htail⟩ := List.pairwise_cons.mp hdisttr
  have hroots : ∀ o ∈ rest, o ∈ db.contacts ∧ o.linkPrecedence = .primary ∧
      t.createdAt ≤ o.createdAt := fun o ho =>
    ⟨(hmem o (List.mem_cons_of_mem _ ho)).1,
     (hmem o (List.mem_cons_of_mem _ ho)).2,
     hcre o (List.mem_cons_of_mem _ ho)⟩
  constructor
  · intro S hS o ho hSl
    obtain ⟨⟨hdist, -, -⟩, -, h1, -, -⟩ := hInv
    have hrows := mergeLoop_rows db t.id rest hdist h1
      (fun o' ho' => ⟨(hroots o' ho').1, (hroots o' ho').2.1⟩) hhead htail
    refine ⟨mergeRow t.id db.now (rest.map (·.id)) S, ?_, ?_, ?_⟩
    · rw [hrows]
      exact List.mem_map_of_mem _ hS
    · exact (mergeRow_proj _ _ _ S).1
    · rcases mergeRow_cases t.id db.now (rest.map (·.id)) S with
        ⟨-, heq⟩ | ⟨-, -, heq⟩ | ⟨-, -, hnol⟩
      · rw [heq]
      · rw [heq]
      · exact absurd (List.mem_map_of_mem (·.id) ho) (hnol o.id hSl)
  · exact mergeTrace_invariant hInv htc.1 htc.2 hroots hhead htail

/-- Witness for `C4_theorem`: the two-cluster merge on `dbC6`, whose stale
root id 2 owns the secondary id 3. -/
theorem C4_witness :
    (Inv dbC6 ∧
     resolveRootsSorted dbC6 (findByEmailOrPhone dbC6
        (some "george@hillvalley.edu") (some "727272")) =
      ⟨1, some "919191", some "george@hillvalley.edu", none, .primary, 0, 0,
        none⟩ ::
        [⟨2, some "717171", some "biffsucks@hillvalley.edu", none, .primary, 1, 1,
          none⟩]) ∧
    ((∀ S ∈ dbC6.contacts,
        ∀ o ∈ [(⟨2, some "717171", some "biffsucks@hillvalley.edu", none,
            .primary, 1, 1, none⟩ : Contact)],
        S.linkedId = some o.id →
        ∃ S' ∈ (mergeLoop dbC6 1
            [⟨2, some "717171", some "biffsucks@hillvalley.edu", none, .primary,
              1, 1, none⟩]).contacts,
          S'.id = S.id ∧ S'.linkedId = some 1) ∧
     (∀ st ∈ mergeTrace dbC6 1
          [⟨2, some "717171", some "biffsucks@hillvalley.edu", none, .primary, 1,
            1, none⟩],
        I2I3holds st)) :=
  ⟨⟨by decide, by decide⟩,
   C4_theorem (some "george@hillvalley.edu") (some "727272") dbC6
     ⟨1, some "919191", some "george@hillvalley.edu", none, .primary, 0, 0, none⟩
     [⟨2, some "717171", some "biffsucks@hillvalley.edu", none, .primary, 1, 1,
       none⟩]
     (by decide) (by decide)⟩

/-! ## C10 — the response-assembly assertion never fails -/

theorem buildResponse_ne_none {db : DB} {pid : Nat}
    (h : ∃ c ∈ db.contacts, c.id = pid ∧ c.deletedAt = none) :
    _buildResponse db pid ≠ none := by
  obtain ⟨c, hc, hcid, hcdel⟩ := h
  have hmem : c ∈ findAllInCluster db pid := by
    unfold findAllInCluster
    rw [mem_sortByLe]
    exact List.mem_filter.mpr ⟨hc, by simp [hcdel, hcid]⟩
  have hsome : ((findAllInCluster db pid).find? fun x =>
      decide (x.id = pid)).isSome :=
    List.find?_isSome.mpr ⟨c, hmem, by simp [hcid]⟩
  simp only [_buildResponse]
  cases hfind : (findAllInCluster db pid).find? fun x => decide (x.id = pid) with
  | none => rw [hfind] at hsome; cases hsome
  | some pr => simp

/-- Without invariant hypotheses: the resolved root of a non-deleted store row
is itself a non-deleted store row (in every branch, fallbacks included). -/
theorem resolvePrimary_mem {db : DB} {m : Contact} (hm : m ∈ db.contacts)
    (hd : m.deletedAt = none) :
    _resolvePrimary db m ∈ db.contacts ∧
      (_resolvePrimary db m).deletedAt = none := by
  unfold _resolvePrimary
  split
  · exact ⟨hm, hd⟩
  · cases hml : m.linkedId with
    | some lid =>
        dsimp only
        cases hf : findById db lid with
        | none => simpa using ⟨hm, hd⟩
        | some q =>
            simp only [Option.getD_some]
            have hqpred := List.find?_some hf
            simp only [Bool.and_eq_true, decide_eq_true_eq] at hqpred
            exact ⟨List.mem_of_find?_eq_some hf, hqpred.1⟩
    | none =>
        dsimp only
        cases hf : db.contacts.find? (fun x => decide (x.deletedAt = none)) with
        | none => simpa using ⟨hm, hd⟩
        | some q =>
            simp only [Option.getD_some]
            have hqpred := List.find?_some hf
            simp only [decide_eq_true_eq] at hqpred
            exact ⟨List.mem_of_find?_eq_some hf, hqpred⟩

theorem foldRow_proj (t now : Nat) (rest : List Contact) (c : Contact) :
    (rest.foldl (fun c o => mergeStepRow t now o c) c).id = c.id ∧
    (rest.foldl (fun c o => mergeStepRow t now o c) c).deletedAt = c.deletedAt := by
  induction rest generalizing c with
  | nil => exact ⟨rfl, rfl⟩
  | cons o os ih =>
      rw [List.foldl_cons]
      have hstep : (mergeStepRow t now o c).id = c.id ∧
          (mergeStepRow t now o c).deletedAt = c.deletedAt := by
        refine ⟨?_, ?_⟩ <;>
          · simp only [mergeStepRow]
            split <;> split <;> rfl
      obtain ⟨hi, hdl⟩ := ih (mergeStepRow t now o c)
      rw [hi, hdl, hstep.1, hstep.2]
      exact ⟨rfl, rfl⟩

/-- C10 (confirmed): for every identify call (the embedding is sequential, so
there is no concurrent store mutation), the cluster fetched in response
assembly contains a contact with the requested primary id, so the source's
non-null assertion in `_buildResponse` never dereferences `undefined` — the
call always returns a consolidated view. -/
theorem C10_theorem (e p : Option String) (db : DB) :
    (identify e p db).2 ≠ none := by
  by_cases hm : (findByEmailOrPhone db e p).isEmpty = true
  · simp only [identify]
    rw [if_pos hm]
    dsimp only
    apply buildResponse_ne_none
    exact ⟨⟨db.nextId, p, e, none, .primary, db.now, db.now, none⟩,
      List.mem_append_right _ (List.mem_singleton_self _), rfl, rfl⟩
  · cases hr : resolveRootsSorted db (findByEmailOrPhone db e p) with
    | nil =>
        exfalso
        cases hmm : findByEmailOrPhone db e p with
        | nil => rw [hmm] at hm; exact hm rfl
        | cons m ms =>
            rw [hmm] at hr
            exact resolveRootsSorted_ne_nil hr
    | cons t rest =>
        rw [identify_main_eq e p db t rest hr]
        dsimp only
        have htmem : t ∈ db.contacts ∧ t.deletedAt = none := by
          have ht' : t ∈ resolveRoots db (findByEmailOrPhone db e p) := by
            have hh : t ∈ sortByLe byCreatedAt
                (resolveRoots db (findByEmailOrPhone db e p)) := by
              rw [show sortByLe byCreatedAt
                  (resolveRoots db (findByEmailOrPhone db e p)) =
                  t :: rest from hr]
              exact List.mem_cons_self _ _
            exact mem_sortByLe.mp hh
          obtain ⟨m, hm', hrm⟩ := resolveRoots_mem ht'
          obtain ⟨hmm, hmd, -⟩ := mem_findByEmailOrPhone hm'
          have hh := resolvePrimary_mem hmm hmd
          rw [← hrm] at hh
          exact hh
        have hrow : ∃ c ∈ (mergeLoop db t.id rest).contacts,
            c.id = t.id ∧ c.deletedAt = none := by
          rw [mergeLoop_eq_map]
          exact ⟨_, List.mem_map_of_mem _ htmem.1,
            (foldRow_proj t.id db.now rest t).1,
            (foldRow_proj t.id db.now rest t).2.trans htmem.2⟩
        by_cases hni : _isNewInfo e p
            (findAllInCluster (mergeLoop db t.id rest) t.id) = true
        · rw [if_pos hni]
          apply buildResponse_ne_none
          obtain ⟨c, hc, hcid, hcd⟩ := hrow
          exact ⟨c, List.mem_append_left _ hc, hcid, hcd⟩
        · rw [if_neg hni]
          exact buildResponse_ne_none hrow

/-! ## C7 — response assembly: comparator and sort decomposition -/

theorem byPrecCreated_sec_sec {a b : Contact}
    (ha : a.linkPrecedence = .secondary) (hb : b.linkPrecedence = .secondary) :
    byPrecCreated a b = byCreatedAt a b := by
  simp [byPrecCreated, byCreatedAt, precRank, ha, hb]

theorem byPrecCreated_prim_sec {a b : Contact}
    (ha : a.linkPrecedence = .primary) (hb : b.linkPrecedence = .secondary) :
    byPrecCreated a b = true := by
  simp [byPrecCreated, precRank, ha, hb]

theorem byPrecCreated_sec_prim {a b : Contact}
    (ha : a.linkPrecedence = .secondary) (hb : b.linkPrecedence = .primary) :
    byPrecCreated a b = false := by
  simp [byPrecCreated, precRank, ha, hb]

theorem insertLe_congr {le₁ le₂ : α → α → Bool} {a : α} {l : List α}
    (h : ∀ b ∈ l, le₁ a b = le₂ a b) : insertLe le₁ a l = insertLe le₂ a l := by
  induction l with
  | nil => rfl
  | cons b m ih =>
      simp only [insertLe]
      rw [h b (List.mem_cons_self b m)]
      split
      · rfl
      · rw [ih fun b' hb' => h b' (List.mem_cons_of_mem b hb')]

theorem sortByLe_congr {le₁ le₂ : α → α → Bool} {l : List α}
    (h : ∀ a ∈ l, ∀ b ∈ l, le₁ a b = le₂ a b) :
    sortByLe le₁ l = sortByLe le₂ l := by
  induction l with
  | nil => rfl
  | cons a m ih =>
      simp only [sortByLe]
      rw [ih fun x hx y hy =>
        h x (List.mem_cons_of_mem a hx) y (List.mem_cons_of_mem a hy)]
      apply insertLe_congr
      intro b hb
      exact h a (List.mem_cons_self a m) b
        (List.mem_cons_of_mem a (mem_sortByLe.mp hb))

/-- Sorting by `(linkPrecedence, createdAt)` a list with exactly one primary
puts the primary first and the secondaries in `createdAt` order. -/
theorem sortPrec_decomp {root : Contact} {l₁ l₂ : List Contact}
    (hroot : root.linkPrecedence = .primary)
    (h₁ : ∀ c ∈ l₁, c.linkPrecedence = .secondary)
    (h₂ : ∀ c ∈ l₂, c.linkPrecedence = .secondary) :
    sortByLe byPrecCreated (l₁ ++ root :: l₂) =
      root :: sortByLe byCreatedAt (l₁ ++ l₂) := by
  induction l₁ with
  | nil =>
      simp only [List.nil_append, sortByLe]
      rw [sortByLe_congr fun a ha b hb =>
        byPrecCreated_sec_sec (h₂ a ha) (h₂ b hb)]
      cases hs : sortByLe byCreatedAt l₂ with
      | nil => rfl
      | cons y ys =>
          have hy : y.linkPrecedence = .secondary := by
            apply h₂
            have : y ∈ sortByLe byCreatedAt l₂ := by
              rw [hs]
              exact List.mem_cons_self y ys
            exact mem_sortByLe.mp this
          simp only [insertLe]
          rw [if_pos (byPrecCreated_prim_sec hroot hy)]
  | cons a l₁' ih =>
      have ha : a.linkPrecedence = .secondary := h₁ a (List.mem_cons_self a l₁')
      simp only [List.cons_append, sortByLe, List.append_eq]
      rw [ih fun c hc => h₁ c (List.mem_cons_of_mem a hc)]
      simp only [insertLe]
      rw [if_neg (by rw [byPrecCreated_sec_prim ha hroot]; simp)]
      have hsec : ∀ b ∈ sortByLe byCreatedAt (l₁' ++ l₂),
          b.linkPrecedence = .secondary := by
        intro b hb
        rcases List.mem_append.mp (mem_sortByLe.mp hb) with hb | hb
        · exact h₁ b (List.mem_cons_of_mem a hb)
        · exact h₂ b hb
      rw [insertLe_congr fun b hb => byPrecCreated_sec_sec ha (hsec b hb)]

/-- Under the invariant, the cluster fetch for a primary row returns the root
first and then the rows linked to it, stably sorted by `createdAt`. -/
theorem findAllInCluster_decomp {db : DB} (hInv : Inv db) {root : Contact}
    (hroot : root ∈ db.contacts) (hprim : root.linkPrecedence = .primary) :
    findAllInCluster db root.id =
      root :: sortByLe byCreatedAt
        (db.contacts.filter fun c => decide (c.linkedId = some root.id)) ∧
    (∀ c ∈ db.contacts.filter (fun c => decide (c.linkedId = some root.id)),
      c.linkPrecedence = .secondary ∧ c.id ≠ root.id) := by
  obtain ⟨⟨hdist, -, -⟩, hdel, h1, -, -⟩ := hInv
  have hlinkfacts : ∀ c ∈ db.contacts, c.linkedId = some root.id →
      c.linkPrecedence = .secondary ∧ c.id ≠ root.id := by
    intro c hc hcl
    constructor
    · cases hcp : c.linkPrecedence with
      | primary =>
          have : c.linkedId = none := (h1 c hc).mp hcp
          rw [hcl] at this
          cases this
      | secondary => rfl
    · intro hcid
      have : c = root := id_unique hdist hc hroot hcid
      subst this
      have : c.linkedId = none := (h1 c hc).mp hprim
      rw [hcl] at this
      cases this
  constructor
  · obtain ⟨s, t, hst⟩ := List.append_of_mem hroot
    have hcross : ∀ x ∈ s, ∀ y ∈ root :: t, x.id ≠ y.id := by
      have := List.pairwise_append.mp (hst ▸ hdist)
      exact this.2.2
    have hsplitids : ∀ x ∈ s, x.id ≠ root.id :=
      fun x hx => hcross x hx root (List.mem_cons_self _ _)
    have htids : ∀ x ∈ t, x.id ≠ root.id := by
      have hpt := (List.pairwise_append.mp (hst ▸ hdist)).2.1
      have := List.pairwise_cons.mp hpt
      intro x hx h
      exact this.1 x hx h.symm
    unfold findAllInCluster
    rw [hst]
    have hfe : ∀ (u : List Contact), (∀ x ∈ u, x.id ≠ root.id) →
        (∀ x ∈ u, x.deletedAt = none) →
        u.filter (fun c => decide (c.deletedAt = none) &&
          (decide (c.id = root.id) || decide (c.linkedId = some root.id))) =
        u.filter fun c => decide (c.linkedId = some root.id) := by
      intro u hids hdels
      apply List.filter_congr
      intro x hx
      simp [hdels x hx, hids x hx]
    have hdels : ∀ x ∈ db.contacts, x.deletedAt = none := hdel
    rw [hst] at hdels
    have hdels_s : ∀ x ∈ s, x.deletedAt = none :=
      fun x hx => hdels x (List.mem_append_left _ hx)
    have hdels_t : ∀ x ∈ t, x.deletedAt = none :=
      fun x hx => hdels x (List.mem_append_right _ (List.mem_cons_of_mem _ hx))
    rw [List.filter_append, List.filter_cons]
    rw [if_pos (by simp [hdel root hroot])]
    rw [hfe s hsplitids hdels_s, hfe t htids hdels_t]
    have hsec_s : ∀ c ∈ s.filter (fun c => decide (c.linkedId = some root.id)),
        c.linkPrecedence = .secondary := by
      intro c hc
      have hm := List.mem_filter.mp hc
      exact (hlinkfacts c (hst ▸ List.mem_append_left _ hm.1)
        (by simpa using hm.2)).1
    have hsec_t : ∀ c ∈ t.filter (fun c => decide (c.linkedId = some root.id)),
        c.linkPrecedence = .secondary := by
      intro c hc
      have hm := List.mem_filter.mp hc
      exact (hlinkfacts c
        (hst ▸ List.mem_append_right _ (List.mem_cons_of_mem _ hm.1))
        (by simpa using hm.2)).1
    rw [sortPrec_decomp hprim hsec_s hsec_t]
    congr 1
    rw [List.filter_append, List.filter_cons]
    rw [if_neg (by simp [(h1 root hroot).mp hprim])]
  · intro c hc
    have hm := List.mem_filter.mp hc
    exact hlinkfacts c hm.1 (by simpa using hm.2)

/-! ## C7 — the deduplication agrees with the amended collapse -/

theorem dedupGo_eq (seen : List String) (values : List (Option String)) :
    dedupGo seen values =
      dedupFirstGo seen ((values.filterMap id).filter fun s => !s.isEmpty) := by
  induction values generalizing seen with
  | nil => rfl
  | cons v vs ih =>
      cases v with
      | none => exact ih seen
      | some s =>
          simp only [dedupGo, List.filterMap_cons, id_eq]
          by_cases hse : s.isEmpty = true
          · rw [if_pos (by simp [hse]), List.filter_cons,
              if_neg (by simp [hse])]
            exact ih seen
          · by_cases hin : seen.contains s = true
            · rw [if_pos (by simp only [Bool.or_eq_true]; exact Or.inr hin)]
              rw [List.filter_cons, if_pos (by simp [hse])]
              simp only [dedupFirstGo]
              rw [if_pos hin]
              exact ih seen
            · rw [if_neg (by
                simp only [Bool.or_eq_true]
                rintro (h | h)
                · exact hse h
                · exact hin h)]
              rw [List.filter_cons, if_pos (by simp [hse])]
              simp only [dedupFirstGo]
              rw [if_neg hin]
              rw [ih (s :: seen)]

theorem deduplicate_eq_spec (values : List (Option String)) :
    _deduplicate values = specCollapseNonEmpty values := by
  unfold _deduplicate specCollapseNonEmpty dedupFirst
  exact dedupGo_eq [] values

/-! ## C7 — amended theorem -/

/-- Under the invariant, `_buildResponse` for a primary row returns exactly
the deduplication of the root's value followed by the linked rows' values in
`createdAt` order, and their ids as `secondaryContactIds`. -/
theorem buildResponse_spec {db : DB} (hInv : Inv db) {root : Contact}
    (hroot : root ∈ db.contacts) (hprim : root.linkPrecedence = .primary) :
    _buildResponse db root.id =
      some { primaryContatctId := root.id
           , emails := _deduplicate (root.email ::
               (sortByLe byCreatedAt (db.contacts.filter fun c =>
                 decide (c.linkedId = some root.id))).map (·.email))
           , phoneNumbers := _deduplicate (root.phoneNumber ::
               (sortByLe byCreatedAt (db.contacts.filter fun c =>
                 decide (c.linkedId = some root.id))).map (·.phoneNumber))
           , secondaryContactIds :=
               (sortByLe byCreatedAt (db.contacts.filter fun c =>
                 decide (c.linkedId = some root.id))).map (·.id) } := by
  obtain ⟨hall, hsecs⟩ := findAllInCluster_decomp hInv hroot hprim
  have hfind : (findAllInCluster db root.id).find?
      (fun c => decide (c.id = root.id)) = some root := by
    rw [hall]
    exact List.find?_cons_of_pos _ (by simp)
  have hfilter : (findAllInCluster db root.id).filter
      (fun c => !decide (c.id = root.id)) =
      sortByLe byCreatedAt (db.contacts.filter fun c =>
        decide (c.linkedId = some root.id)) := by
    rw [hall, List.filter_cons]
    rw [if_neg (by simp)]
    apply List.filter_eq_self.mpr
    intro c hc
    simp [(hsecs c (mem_sortByLe.mp hc)).2]
  simp only [_buildResponse, hfind, hfilter]

/-- Every identify call returns the `_buildResponse` view of its final state
for a root that is PRIMARY in that final state. -/
theorem identify_response_eq (e p : Option String) (db : DB) (hInv : Inv db) :
    ∃ root ∈ (identify e p db).1.contacts, root.linkPrecedence = .primary ∧
      (identify e p db).2 = _buildResponse (identify e p db).1 root.id := by
  by_cases hm : (findByEmailOrPhone db e p).isEmpty = true
  · simp only [identify]
    rw [if_pos hm]
    dsimp only
    exact ⟨⟨db.nextId, p, e, none, .primary, db.now, db.now, none⟩,
      List.mem_append_right _ (List.mem_singleton_self _), rfl, rfl⟩
  · cases hr : resolveRootsSorted db (findByEmailOrPhone db e p) with
    | nil =>
        exfalso
        cases hmm : findByEmailOrPhone db e p with
        | nil => rw [hmm] at hm; exact hm rfl
        | cons m ms =>
            rw [hmm] at hr
            exact resolveRootsSorted_ne_nil hr
    | cons t rest =>
        rw [identify_main_eq e p db t rest hr]
        dsimp only
        obtain ⟨hmem, hdisttr, hcre⟩ := rootsSorted_spec hInv hr
        have htc := hmem t (List.mem_cons_self _ _)
        obtain ⟨hhead, htail⟩ := List.pairwise_cons.mp hdisttr
        have hIm := Inv_mergeLoop hInv htc.1 htc.2
          (fun o ho => ⟨(hmem o (List.mem_cons_of_mem _ ho)).1,
            (hmem o (List.mem_cons_of_mem _ ho)).2,
            hcre o (List.mem_cons_of_mem _ ho)⟩)
          hhead htail
        by_cases hni : _isNewInfo e p
            (findAllInCluster (mergeLoop db t.id rest) t.id) = true
        · rw [if_pos hni]
          exact ⟨t, List.mem_append_left _ hIm.2.1, htc.2, rfl⟩
        · rw [if_neg hni]
          exact ⟨t, hIm.2.1, htc.2, rfl⟩

/-- C7 (amended): every consolidated view consists of the root's email
followed by the secondaries' emails in cluster order (root first, then the
rest by `createdAt` ascending), with null AND EMPTY-STRING values dropped and
duplicates removed keeping the first occurrence; phones by the same rule; and
`secondaryContactIds` is the ids of the non-root cluster members in cluster
order — all computed on the final store state, reflecting any write of the
new-information step. -/
theorem C7_theorem (e p : Option String) (db : DB) (hInv : Inv db) :
    ∀ resp, (identify e p db).2 = some resp →
    ∃ root secs,
      findAllInCluster (identify e p db).1 resp.primaryContatctId =
        root :: sortByLe byCreatedAt secs ∧
      root ∈ (identify e p db).1.contacts ∧
      root.id = resp.primaryContatctId ∧
      root.linkPrecedence = .primary ∧
      (∀ c ∈ secs, c.linkedId = some resp.primaryContatctId ∧
        c.linkPrecedence = .secondary) ∧
      resp.emails = specCollapseNonEmpty (root.email ::
        (sortByLe byCreatedAt secs).map (·.email)) ∧
      resp.phoneNumbers = specCollapseNonEmpty (root.phoneNumber ::
        (sortByLe byCreatedAt secs).map (·.phoneNumber)) ∧
      resp.secondaryContactIds = (sortByLe byCreatedAt secs).map (·.id) := by
  intro resp hresp
  have hInv' : Inv (identify e p db).1 := identify_preserves_Inv e p hInv
  obtain ⟨root, hrm, hrp, heq⟩ := identify_response_eq e p db hInv
  rw [heq, buildResponse_spec hInv' hrm hrp] at hresp
  injection hresp with hresp
  subst hresp
  obtain ⟨hall, hsecs⟩ := findAllInCluster_decomp hInv' hrm hrp
  refine ⟨root, (identify e p db).1.contacts.filter
    (fun c => decide (c.linkedId = some root.id)), hall, hrm, rfl, hrp,
    ?_, ?_, ?_, rfl⟩
  · intro c hc
    have hm := List.mem_filter.mp hc
    exact ⟨by simpa using hm.2, (hsecs c hc).1⟩
  · exact deduplicate_eq_spec _
  · exact deduplicate_eq_spec _

/-- Witness for `C7_theorem`: the merging call on `dbC6` and its concrete
response. -/
theorem C7_witness :
    Inv dbC6 ∧
    (identify (some "george@hillvalley.edu") (some "727272") dbC6).2 =
      some ⟨1, ["george@hillvalley.edu", "biffsucks@hillvalley.edu",
                "match@hillvalley.edu"],
            ["919191", "717171", "727272"], [2, 3]⟩ ∧
    (∃ root secs,
      findAllInCluster
          (identify (some "george@hillvalley.edu") (some "727272") dbC6).1 1 =
        root :: sortByLe byCreatedAt secs ∧
      root ∈ (identify (some "george@hillvalley.edu") (some "727272")
        dbC6).1.contacts ∧
      root.id = 1 ∧
      root.linkPrecedence = .primary ∧
      (∀ c ∈ secs, c.linkedId = some 1 ∧
        c.linkPrecedence = .secondary) ∧
      ["george@hillvalley.edu", "biffsucks@hillvalley.edu",
        "match@hillvalley.edu"] = specCollapseNonEmpty (root.email ::
        (sortByLe byCreatedAt secs).map (·.email)) ∧
      ["919191", "717171", "727272"] = specCollapseNonEmpty (root.phoneNumber ::
        (sortByLe byCreatedAt secs).map (·.phoneNumber)) ∧
      [2, 3] = (sortByLe byCreatedAt secs).map (·.id)) :=
  ⟨by decide, by decide,
   C7_theorem (some "george@hillvalley.edu") (some "727272") dbC6 (by decide)
     ⟨1, ["george@hillvalley.edu", "biffsucks@hillvalley.edu",
          "match@hillvalley.edu"],
      ["919191", "717171", "727272"], [2, 3]⟩ (by decide)⟩

/-! ## C5 — helper lemmas -/

/-- A cluster member carrying exactly the requested pair makes the
new-information check false. -/
theorem isNewInfo_false_of_cover {e p : Option String} {l : List Contact}
    {c : Contact} (hc : c ∈ l) (he : c.email = e) (hp : c.phoneNumber = p) :
    _isNewInfo e p l = false := by
  have hanye : (l.any fun x => truthy e && decide (x.email = e)) = truthy e := by
    cases hte : truthy e with
    | false => simp
    | true => exact List.any_eq_true.mpr ⟨c, hc, by simp [hte, he]⟩
  have hanyp : (l.any fun x =>
      truthy p && decide (x.phoneNumber = p)) = truthy p := by
    cases htp : truthy p with
    | false => simp
    | true => exact List.any_eq_true.mpr ⟨c, hc, by simp [htp, hp]⟩
  simp only [_isNewInfo, hanye, hanyp]
  cases truthy e <;> cases truthy p <;> simp

/-- When at least one condition is pushed, candidate-lookup membership is
exactly: non-deleted store row matching the filter. -/
theorem mem_findByEmailOrPhone_iff {db : DB} {e p : Option String}
    (htr : truthy e = true ∨ truthy p = true) {m : Contact} :
    m ∈ findByEmailOrPhone db e p ↔
      m ∈ db.contacts ∧ m.deletedAt = none ∧ matchesCandidate e p m = true := by
  unfold findByEmailOrPhone
  rw [if_neg (by rcases htr with h | h <;> simp [h])]
  rw [mem_sortByLe, List.mem_filter]
  simp only [Bool.and_eq_true, decide_eq_true_eq]

/-- In a duplicate-free store, `findById` at a present non-deleted row's id
returns that row. -/
theorem findById_unique {db : DB}
    (hd : List.Pairwise (fun a b => a.id ≠ b.id) db.contacts)
    {q : Contact} (hq : q ∈ db.contacts) (hqd : q.deletedAt = none) :
    findById db q.id = some q := by
  have hsome : (db.contacts.find? fun c =>
      decide (c.deletedAt = none) && decide (c.id = q.id)).isSome :=
    List.find?_isSome.mpr ⟨q, hq, by simp [hqd]⟩
  obtain ⟨c, hc⟩ := Option.isSome_iff_exists.mp hsome
  have hcmem : c ∈ db.contacts := List.mem_of_find?_eq_some hc
  have hcpred := List.find?_some hc
  simp only [Bool.and_eq_true, decide_eq_true_eq] at hcpred
  have : c = q := id_unique hd hcmem hq hcpred.2
  rw [show findById db q.id = db.contacts.find? (fun c =>
    decide (c.deletedAt = none) && decide (c.id = q.id)) from rfl, hc, this]

theorem insertRoot_id_stable {acc : List Contact} {x : Contact} {i : Nat} :
    (∃ r ∈ acc, r.id = i) → ∃ r ∈ insertRoot acc x, r.id = i := by
  rintro ⟨r, hr, hri⟩
  unfold insertRoot
  split
  · by_cases hxi : r.id = x.id
    · refine ⟨x, ?_, hxi ▸ hri⟩
      apply List.mem_map.mpr
      exact ⟨r, hr, by rw [if_pos (by simp [hxi])]⟩
    · refine ⟨r, ?_, hri⟩
      apply List.mem_map.mpr
      exact ⟨r, hr, by rw [if_neg (by simp [hxi])]⟩
  · exact ⟨r, List.mem_append_left _ hr, hri⟩

theorem insertRoot_id_new {acc : List Contact} {x : Contact} :
    ∃ r ∈ insertRoot acc x, r.id = x.id := by
  unfold insertRoot
  split
  · rename_i hany
    obtain ⟨r, hr, hrx⟩ := List.any_eq_true.mp hany
    refine ⟨x, ?_, rfl⟩
    apply List.mem_map.mpr
    exact ⟨r, hr, by rw [if_pos hrx]⟩
  · exact ⟨x, List.mem_append_right _ (List.mem_singleton_self _), rfl⟩

/-- Every matched contact's resolved root appears (by id) among the collected
roots. -/
theorem resolveRoots_id_covers {db : DB} {ms : List Contact} {m : Contact}
    (hm : m ∈ ms) :
    ∃ r ∈ resolveRoots db ms, r.id = (_resolvePrimary db m).id := by
  unfold resolveRoots
  have key : ∀ (ms : List Contact) (acc : List Contact),
      (∃ r ∈ acc, r.id = (_resolvePrimary db m).id) ∨ m ∈ ms →
      ∃ r ∈ ms.foldl (fun acc c => insertRoot acc (_resolvePrimary db c)) acc,
        r.id = (_resolvePrimary db m).id := by
    intro ms
    induction ms with
    | nil =>
        rintro acc (h | h)
        · exact h
        · exact absurd h (List.not_mem_nil m)
    | cons x xs ih =>
        rintro acc (h | h)
        · exact ih _ (Or.inl (insertRoot_id_stable h))
        · rcases List.mem_cons.mp h with rfl | h
          · exact ih _ (Or.inl insertRoot_id_new)
          · exact ih _ (Or.inr h)
  exact key ms [] (Or.inr hm)

/-- Under distinct ids, the resolved root of every matched row is itself a
member of the collected root list. -/
theorem resolve_mem_roots {db : DB}
    (hd : List.Pairwise (fun a b => a.id ≠ b.id) db.contacts)
    {ms : List Contact} (hms : ∀ m ∈ ms, m ∈ db.contacts ∧ m.deletedAt = none)
    {m : Contact} (hm : m ∈ ms) :
    _resolvePrimary db m ∈ resolveRoots db ms := by
  obtain ⟨r, hr, hri⟩ := resolveRoots_id_covers hm
  obtain ⟨m', hm', hrm'⟩ := resolveRoots_mem hr
  have hr_in : r ∈ db.contacts := by
    rw [hrm']
    exact (resolvePrimary_mem (hms m' hm').1 (hms m' hm').2).1
  have hm_in : _resolvePrimary db m ∈ db.contacts :=
    (resolvePrimary_mem (hms m hm).1 (hms m hm).2).1
  have : r = _resolvePrimary db m := id_unique hd hr_in hm_in hri
  rw [← this]
  exact hr

/-- When every matched row resolves to the same root, the collected root list
is exactly that singleton. -/
theorem resolveRoots_const {db : DB} {ms : List Contact} {t : Contact}
    (hne : ms ≠ []) (hall : ∀ m ∈ ms, _resolvePrimary db m = t) :
    resolveRoots db ms = [t] := by
  unfold resolveRoots
  have hstep : insertRoot [t] t = [t] := by
    unfold insertRoot
    rw [if_pos (by simp)]
    simp
  have key : ∀ (ms : List Contact), (∀ m ∈ ms, _resolvePrimary db m = t) →
      ms.foldl (fun acc c => insertRoot acc (_resolvePrimary db c)) [t] = [t] := by
    intro ms
    induction ms with
    | nil => intro _; rfl
    | cons x xs ih =>
        intro h
        rw [List.foldl_cons, h x (List.mem_cons_self x xs), hstep]
        exact ih fun m hm => h m (List.mem_cons_of_mem x hm)
  cases ms with
  | nil => exact absurd rfl hne
  | cons x xs =>
      rw [List.foldl_cons, hall x (List.mem_cons_self x xs)]
      rw [show insertRoot [] t = [t] from rfl]
      exact key xs fun m hm => hall m (List.mem_cons_of_mem x hm)

/-- After the merge (and an optional secondary creation), every candidate the
second lookup returns resolves in one hop to the surviving root `t`. -/
theorem resolve_in_final {db : DB} (hInv : Inv db) {e p : Option String}
    {t : Contact} {rest : List Contact}
    (hr : resolveRootsSorted db (findByEmailOrPhone db e p) = t :: rest)
    (htr : truthy e = true ∨ truthy p = true)
    {dbf : DB} (hInvf : Inv dbf) {ns : List Contact}
    (hcts : dbf.contacts =
      db.contacts.map (mergeRow t.id db.now (rest.map (·.id))) ++ ns)
    (hns : ∀ n ∈ ns, n.linkPrecedence = .secondary ∧ n.linkedId = some t.id)
    (htf : t ∈ dbf.contacts) :
    ∀ m ∈ findByEmailOrPhone dbf e p, _resolvePrimary dbf m = t := by
  obtain ⟨⟨hdist, hlt, hnow⟩, hdel, h1, h23, h4⟩ := hInv
  have hInv' : Inv db := ⟨⟨hdist, hlt, hnow⟩, hdel, h1, h23, h4⟩
  obtain ⟨hmem, hdisttr, hcre⟩ := rootsSorted_spec hInv' hr
  have htc := hmem t (List.mem_cons_self _ _)
  have htprim := htc.2
  have htdel : t.deletedAt = none := hdel t htc.1
  have hfb : findById dbf t.id = some t := findById_unique hInvf.1.1 htf htdel
  intro m hm
  obtain ⟨hmf, hmdel, hmmatch⟩ := (mem_findByEmailOrPhone_iff htr).mp hm
  rw [hcts] at hmf
  rcases List.mem_append.mp hmf with hmf | hmf
  · obtain ⟨c, hc, hfc⟩ := List.mem_map.mp hmf
    rcases mergeRow_cases t.id db.now (rest.map (·.id)) c with
      ⟨hin, heq⟩ | ⟨hnin, ⟨r, hcl, hrin⟩, heq⟩ | ⟨hnin, heq, hnol⟩
    · rw [← hfc, heq]
      unfold _resolvePrimary
      rw [if_neg (by simp)]
      dsimp only
      rw [hfb]
      rfl
    · have hcsec : ¬ c.linkPrecedence = .primary := by
        intro hcp
        have : c.linkedId = none := (h1 c hc).mp hcp
        rw [hcl] at this
        cases this
      rw [← hfc, heq]
      unfold _resolvePrimary
      rw [if_neg (by simpa using hcsec)]
      dsimp only
      rw [hfb]
      rfl
    · have hmc : m = c := by rw [← hfc, heq]
      subst hmc
      have hcm1 : m ∈ findByEmailOrPhone db e p :=
        (mem_findByEmailOrPhone_iff htr).mpr ⟨hc, hdel m hc, hmmatch⟩
      have hms : ∀ x ∈ findByEmailOrPhone db e p,
          x ∈ db.contacts ∧ x.deletedAt = none := fun x hx =>
        ⟨(mem_findByEmailOrPhone hx).1, (mem_findByEmailOrPhone hx).2.1⟩
      have hres_mem : _resolvePrimary db m ∈
          resolveRoots db (findByEmailOrPhone db e p) :=
        resolve_mem_roots hdist hms hcm1
      have hres_in : _resolvePrimary db m ∈ t :: rest := by
        have hh : _resolvePrimary db m ∈ sortByLe byCreatedAt
            (resolveRoots db (findByEmailOrPhone db e p)) :=
          mem_sortByLe.mpr hres_mem
        rw [show sortByLe byCreatedAt
            (resolveRoots db (findByEmailOrPhone db e p)) =
            t :: rest from hr] at hh
        exact hh
      by_cases hcp : m.linkPrecedence = .primary
      · have hresc : _resolvePrimary db m = m := by
          unfold _resolvePrimary
          rw [if_pos hcp]
        rw [hresc] at hres_in
        rcases List.mem_cons.mp hres_in with heqct | hcrest
        · rw [heqct] at hcp ⊢
          unfold _resolvePrimary
          rw [if_pos hcp]
        · exact absurd (List.mem_map_of_mem (·.id) hcrest) hnin
      · have hclx : ∃ r, m.linkedId = some r := by
          cases hcli : m.linkedId with
          | none => exact absurd ((h1 m hc).mpr hcli) hcp
          | some r => exact ⟨r, rfl⟩
        obtain ⟨r, hclr⟩ := hclx
        obtain ⟨q, hq, hqid, hqprim⟩ := h23 m hc r hclr
        have hfbq : findById db r = some q := by
          have hh := findById_unique hdist hq (hdel q hq)
          rw [hqid] at hh
          exact hh
        have hresc : _resolvePrimary db m = q := by
          unfold _resolvePrimary
          rw [if_neg hcp, hclr]
          dsimp only
          rw [hfbq]
          rfl
        rw [hresc] at hres_in
        rcases List.mem_cons.mp hres_in with heqqt | hqrest
        · unfold _resolvePrimary
          rw [if_neg hcp, hclr]
          dsimp only
          rw [show r = t.id from by rw [← hqid, heqqt], hfb]
          rfl
        · exfalso
          apply hnol r hclr
          rw [← hqid]
          exact List.mem_map_of_mem (·.id) hqrest
  · have hnsm := hns m hmf
    unfold _resolvePrimary
    rw [if_neg (by simp [hnsm.1])]
    rw [hnsm.2]
    dsimp only
    rw [hfb]
    rfl

/-- A call whose lookup resolves to a single root carrying no new information
performs zero writes and returns the pure read of that cluster. -/
theorem second_call_noop {db0 : DB} {e p : Option String} {t : Contact}
    (hr₂ : resolveRootsSorted db0 (findByEmailOrPhone db0 e p) = t :: [])
    (hni₂ : _isNewInfo e p (findAllInCluster db0 t.id) = false) :
    identify e p db0 = (db0, _buildResponse db0 t.id) := by
  rw [identify_main_eq e p db0 t [] hr₂]
  simp only [mergeLoop]
  rw [hni₂]
  simp

theorem roots_singleton {db0 : DB} {e p : Option String} {t : Contact}
    (hne : findByEmailOrPhone db0 e p ≠ [])
    (hall : ∀ m ∈ findByEmailOrPhone db0 e p, _resolvePrimary db0 m = t) :
    resolveRootsSorted db0 (findByEmailOrPhone db0 e p) = t :: [] := by
  unfold resolveRootsSorted
  rw [resolveRoots_const hne hall]
  rfl

/-- C5 (amended): for every store state satisfying the invariant and every
(email, phone) pair of which at least one is a NON-EMPTY string, running
`identify` twice with the identical pair yields two identical responses and
the second call performs zero writes (its final store state equals the state
it started from). -/
theorem C5_theorem (e p : Option String) (db : DB) (hInv : Inv db)
    (htr : truthy e = true ∨ truthy p = true) :
    (identify e p (identify e p db).1).1 = (identify e p db).1 ∧
    (identify e p (identify e p db).1).2 = (identify e p db).2 := by
  by_cases hm : (findByEmailOrPhone db e p).isEmpty = true
  · -- cold start
    have hguard : ¬(!truthy e && !truthy p) = true := by
      rcases htr with h | h <;> simp [h]
    have hm1nil : findByEmailOrPhone db e p = [] := by
      cases hmm : findByEmailOrPhone db e p with
      | nil => rfl
      | cons a l => rw [hmm] at hm; simp at hm
    have hfilter : (db.contacts.filter fun c =>
        decide (c.deletedAt = none) && matchesCandidate e p c) = [] := by
      have h0 := hm1nil
      unfold findByEmailOrPhone at h0
      rw [if_neg hguard] at h0
      exact sortByLe_eq_nil.mp h0
    have hcall1 : identify e p db =
        ((createContact db ⟨e, p, none, .primary⟩).2,
         _buildResponse (createContact db ⟨e, p, none, .primary⟩).2
           db.nextId) := by
      simp only [identify]
      rw [if_pos hm]
      rfl
    have hNpred : (decide ((⟨db.nextId, p, e, none, .primary, db.now, db.now,
        none⟩ : Contact).deletedAt = none) &&
        matchesCandidate e p ⟨db.nextId, p, e, none, .primary, db.now, db.now,
          none⟩) = true := by
      rcases htr with h | h <;> simp [matchesCandidate, h]
    have hm2 : findByEmailOrPhone (createContact db ⟨e, p, none, .primary⟩).2
        e p = [⟨db.nextId, p, e, none, .primary, db.now, db.now, none⟩] := by
      unfold findByEmailOrPhone
      rw [if_neg hguard]
      show sortByLe byCreatedAt ((db.contacts ++
        [(⟨db.nextId, p, e, none, .primary, db.now, db.now, none⟩ :
          Contact)]).filter
          fun c => decide (c.deletedAt = none) && matchesCandidate e p c) = _
      rw [List.filter_append, hfilter, List.filter_cons, if_pos hNpred]
      rfl
    have hr₂ : resolveRootsSorted (createContact db ⟨e, p, none, .primary⟩).2
        (findByEmailOrPhone (createContact db ⟨e, p, none, .primary⟩).2 e p) =
        (⟨db.nextId, p, e, none, .primary, db.now, db.now, none⟩ : Contact) ::
          [] := by
      rw [hm2]
      rfl
    have hcover : (⟨db.nextId, p, e, none, .primary, db.now, db.now, none⟩ :
        Contact) ∈ findAllInCluster
          (createContact db ⟨e, p, none, .primary⟩).2 db.nextId := by
      unfold findAllInCluster
      rw [mem_sortByLe]
      apply List.mem_filter.mpr
      exact ⟨List.mem_append_right _ (List.mem_singleton_self _), by simp⟩
    have hni₂ : _isNewInfo e p (findAllInCluster
        (createContact db ⟨e, p, none, .primary⟩).2 db.nextId) = false :=
      isNewInfo_false_of_cover hcover rfl rfl
    rw [hcall1]
    dsimp only
    rw [second_call_noop hr₂ hni₂]
    exact ⟨rfl, rfl⟩
  · cases hr : resolveRootsSorted db (findByEmailOrPhone db e p) with
    | nil =>
        exfalso
        cases hmm : findByEmailOrPhone db e p with
        | nil => rw [hmm] at hm; exact hm rfl
        | cons m ms =>
            rw [hmm] at hr
            exact resolveRootsSorted_ne_nil hr
    | cons t rest =>
        have hcall1 := identify_main_eq e p db t rest hr
        obtain ⟨hmem, hdisttr, hcre⟩ := rootsSorted_spec hInv hr
        have htc := hmem t (List.mem_cons_self _ _)
        obtain ⟨hhead, htail⟩ := List.pairwise_cons.mp hdisttr
        have hrootsb : ∀ o ∈ rest, o ∈ db.contacts ∧
            o.linkPrecedence = .primary ∧ t.createdAt ≤ o.createdAt :=
          fun o ho => ⟨(hmem o (List.mem_cons_of_mem _ ho)).1,
            (hmem o (List.mem_cons_of_mem _ ho)).2,
            hcre o (List.mem_cons_of_mem _ ho)⟩
        have hIm := Inv_mergeLoop hInv htc.1 htc.2 hrootsb hhead htail
        have hrows := mergeLoop_rows db t.id rest hInv.1.1 hInv.2.2.1
          (fun o ho => ⟨(hrootsb o ho).1, (hrootsb o ho).2.1⟩) hhead htail
        have hne1 : findByEmailOrPhone db e p ≠ [] :=
          resolveRootsSorted_input_ne_nil hr
        obtain ⟨m₁, hm₁⟩ := List.exists_mem_of_ne_nil _ hne1
        obtain ⟨hm₁db, hm₁del, hm₁match⟩ :=
          (mem_findByEmailOrPhone_iff htr).mp hm₁
        have hproj := mergeRow_proj t.id db.now (rest.map (·.id)) m₁
        have himg_match : matchesCandidate e p
            (mergeRow t.id db.now (rest.map (·.id)) m₁) = true := by
          unfold matchesCandidate at hm₁match ⊢
          rw [hproj.2.2.2.1, hproj.2.2.2.2]
          exact hm₁match
        have himg_del :
            (mergeRow t.id db.now (rest.map (·.id)) m₁).deletedAt = none := by
          rw [hproj.2.2.1]
          exact hm₁del
        have hdb1c : (mergeLoop db t.id rest).contacts =
            db.contacts.map (mergeRow t.id db.now (rest.map (·.id))) :=
          congrArg DB.contacts hrows
        by_cases hni : _isNewInfo e p
            (findAllInCluster (mergeLoop db t.id rest) t.id) = true
        · -- a secondary was created by the first call
          have hInvf : Inv (createContact (mergeLoop db t.id rest)
              ⟨e, p, some t.id, .secondary⟩).2 :=
            Inv_create hIm.1 _ (Or.inr ⟨t, hIm.2.1, rfl, htc.2, rfl⟩)
          have hcts : (createContact (mergeLoop db t.id rest)
              ⟨e, p, some t.id, .secondary⟩).2.contacts =
              db.contacts.map (mergeRow t.id db.now (rest.map (·.id))) ++
                [(createContact (mergeLoop db t.id rest)
                  ⟨e, p, some t.id, .secondary⟩).1] := by
            show (mergeLoop db t.id rest).contacts ++ _ = _
            rw [hdb1c]
            rfl
          have hns : ∀ n ∈ [(createContact (mergeLoop db t.id rest)
              ⟨e, p, some t.id, .secondary⟩).1],
              n.linkPrecedence = .secondary ∧ n.linkedId = some t.id := by
            intro n hn
            rw [List.mem_singleton] at hn
            rw [hn]
            exact ⟨rfl, rfl⟩
          have htf : t ∈ (createContact (mergeLoop db t.id rest)
              ⟨e, p, some t.id, .secondary⟩).2.contacts :=
            List.mem_append_left _ hIm.2.1
          have hall := resolve_in_final hInv hr htr hInvf hcts hns htf
          have hm₂ : mergeRow t.id db.now (rest.map (·.id)) m₁ ∈
              findByEmailOrPhone (createContact (mergeLoop db t.id rest)
                ⟨e, p, some t.id, .secondary⟩).2 e p :=
            (mem_findByEmailOrPhone_iff htr).mpr
              ⟨by
                rw [hcts]
                exact List.mem_append_left _ (List.mem_map_of_mem _ hm₁db),
               himg_del, himg_match⟩
          have hr₂ := roots_singleton (List.ne_nil_of_mem hm₂) hall
          have hN1 : (createContact (mergeLoop db t.id rest)
              ⟨e, p, some t.id, .secondary⟩).1 ∈
              findAllInCluster (createContact (mergeLoop db t.id rest)
                ⟨e, p, some t.id, .secondary⟩).2 t.id := by
            unfold findAllInCluster
            rw [mem_sortByLe]
            apply List.mem_filter.mpr
            refine ⟨List.mem_append_right _ (List.mem_singleton_self _), ?_⟩
            simp only [Bool.and_eq_true, Bool.or_eq_true, decide_eq_true_eq]
            exact ⟨rfl, Or.inr rfl⟩
          have hni₂ := isNewInfo_false_of_cover hN1 rfl rfl
          rw [hcall1]
          dsimp only
          rw [if_pos hni]
          rw [second_call_noop hr₂ hni₂]
          exact ⟨rfl, rfl⟩
        · -- the first call performed no create: final state is the merge
          have hni' : _isNewInfo e p
              (findAllInCluster (mergeLoop db t.id rest) t.id) = false :=
            Bool.eq_false_iff.mpr hni
          have hcts : (mergeLoop db t.id rest).contacts =
              db.contacts.map (mergeRow t.id db.now (rest.map (·.id))) ++
                [] := by
            rw [List.append_nil]
            exact hdb1c
          have hns : ∀ n ∈ ([] : List Contact),
              n.linkPrecedence = .secondary ∧ n.linkedId = some t.id :=
            fun n hn => absurd hn (List.not_mem_nil n)
          have hall := resolve_in_final hInv hr htr hIm.1 hcts hns hIm.2.1
          have hm₂ : mergeRow t.id db.now (rest.map (·.id)) m₁ ∈
              findByEmailOrPhone (mergeLoop db t.id rest) e p :=
            (mem_findByEmailOrPhone_iff htr).mpr
              ⟨by
                rw [hdb1c]
                exact List.mem_map_of_mem _ hm₁db,
               himg_del, himg_match⟩
          have hr₂ := roots_singleton (List.ne_nil_of_mem hm₂) hall
          rw [hcall1]
          dsimp only
          rw [if_neg (by simp [hni'])]
          rw [second_call_noop hr₂ hni']
          exact ⟨rfl, rfl⟩

/-- Witness for `C5_theorem`: the merging call on `dbC6`, repeated. -/
theorem C5_witness :
    (Inv dbC6 ∧
     (truthy (some "george@hillvalley.edu") = true ∨
      truthy (some "727272") = true)) ∧
    ((identify (some "george@hillvalley.edu") (some "727272")
        (identify (some "george@hillvalley.edu") (some "727272") dbC6).1).1 =
      (identify (some "george@hillvalley.edu") (some "727272") dbC6).1 ∧
     (identify (some "george@hillvalley.edu") (some "727272")
        (identify (some "george@hillvalley.edu") (some "727272") dbC6).1).2 =
      (identify (some "george@hillvalley.edu") (some "727272") dbC6).2) :=
  ⟨⟨by decide, by decide⟩,
   C5_theorem (some "george@hillvalley.edu") (some "727272") dbC6 (by decide)
     (by decide)⟩

end BiteSpeed
